import Mathlib

/-!
# GrScImage: a generic grayscale raster (`src/library/grayscale.hpp`)

Shallow embedding of the class template `GrScImage<T>` for the element types
`bool`, `char` (signed, 8 bit) and `short` (16 bit), and proofs about its
constructor, element access, operators, `fillability` and `draw_circle`; the
binary operators of `GrScImage<float>` are embedded as `FloatImage`.

Conventions of the embedding

* A value of the element type `T` is an integer inside the range of `T`
  (`Cell T`); `bool` is `0`/`1`.  Converting an `int` result back to `T`
  (`convert`) wraps modulo `2^8` resp. `2^16`, and is `≠ 0` for `bool`.
* `T** _data` is a map from the index pair to the cell; the loops of the source
  are kept as loops (`forLoop`, `forLoopM`) over the counter values `0 .. n-1`.
  The counters of `operator!` and `operator==` are `int` in the source: they
  visit `0 .. min(n, 2^31) - 1` (`intCounterLimit`), the increment at `2^31 - 1`
  being taken with two's-complement wrap like the other signed arithmetic.
* For the integral element types every `double` that occurs, except the quotient
  that `fillability` returns, holds an integer, so a `double` is represented by the
  integer it holds; `roundToDouble` is the IEEE-754 rounding (53 bit significand,
  ties to even) that conversions and arithmetic results undergo.  The quotient of
  `fillability` is a rational rounded to a 53 bit significand (`roundRat`).
* A `float` or `double` of `GrScImage<float>` is a `FloatValue`: NaN, an infinity
  or a rational.
* `size_t` arguments are naturals; `static_cast<long long>` and `long long`
  arithmetic are two's-complement modulo `2^64` (`toLongLong`, `wrapLongLong`).
* `throw` is `Except.error`.
-/

namespace GrayScale

/-! ## Element types -/

/-- The integral element types `T` the constructor accepts.  The instantiation
`GrScImage<float>` has cells of another kind (NaN, infinities, fractions) and is embedded
separately, as `FloatImage`. -/
inductive PixelType where
  | bool
  | char
  | short
  deriving DecidableEq

namespace PixelType

/-- Smallest value of the C++ type. -/
def lo : PixelType → Int
  | bool => 0
  | char => -128
  | short => -32768

/-- Largest value of the C++ type; this is also what the constructor stores in `_max_type`. -/
def hi : PixelType → Int
  | bool => 1
  | char => 127
  | short => 32767

end PixelType

/-- A value of the C++ type `T`. -/
def Cell (T : PixelType) : Type := { z : Int // T.lo ≤ z ∧ z ≤ T.hi }

instance (T : PixelType) : DecidableEq (Cell T) := fun a b =>
  decidable_of_iff (a.val = b.val) Subtype.ext_iff.symm

/-- Conversion of an integer value to `T` (an assignment or a `static_cast<T>`):
truth value for `bool`, two's-complement wrap for `char` and `short`. -/
def convert (T : PixelType) (z : Int) : Cell T :=
  match T with
  | .bool => ⟨if z = 0 then 0 else 1, by
      simp only [PixelType.lo, PixelType.hi]; split <;> omega⟩
  | .char => ⟨(z + 128) % 256 - 128, by
      simp only [PixelType.lo, PixelType.hi]; omega⟩
  | .short => ⟨(z + 32768) % 65536 - 32768, by
      simp only [PixelType.lo, PixelType.hi]; omega⟩

/-- The value-initialised `T{}`. -/
def zero (T : PixelType) : Cell T := convert T 0

/-- The field `_max_type`, as the constructor sets it: 1, 127 or 32767. -/
def max_type (T : PixelType) : Cell T := convert T T.hi

/-! ## Machine arithmetic -/

/-- The `double` nearest to the integer `z` (round to nearest, ties to even, 53 bit
significand); integers below `2^53` in magnitude are representable. -/
def roundToDouble (z : Int) : Int :=
  let a := z.natAbs
  if a < 9007199254740992 then z
  else
    let sh := Nat.log2 a - 52
    let q := a / 2 ^ sh
    let rem := a % 2 ^ sh
    let half := 2 ^ (sh - 1)
    let q' := if half < rem ∨ (rem = half ∧ q % 2 = 1) then q + 1 else q
    Int.sign z * ((q' * 2 ^ sh : Nat) : Int)

/-- Reduction of an integer into the range of `long long`. -/
def wrapLongLong (z : Int) : Int :=
  (z + 9223372036854775808) % 18446744073709551616 - 9223372036854775808

/-- Conversion `static_cast<long long>(n)` of a `size_t`. -/
def toLongLong (n : Nat) : Int := wrapLongLong (n : Int)

/-- The integer nearest to the rational `m`, the even one when `m` lies half way. -/
def nearestEven (m : ℚ) : Int :=
  if 1 / 2 < m - ⌊m⌋ ∨ (m - ⌊m⌋ = 1 / 2 ∧ ⌊m⌋ % 2 = 1) then ⌊m⌋ + 1 else ⌊m⌋

/-- The binary floating-point number with a `p` bit significand nearest to the rational
`q` (round to nearest, ties to even, exponent range not limited): `p = 53` is the rounding
of a `double` result, `p = 24` that of a `float`. -/
def roundRat (p : Nat) (q : ℚ) : ℚ :=
  if q = 0 then 0
  else
    let ulp : ℚ := (2 : ℚ) ^ (Int.log 2 |q| - ((p : Int) - 1))
    (if q < 0 then -1 else 1) * (nearestEven (|q| / ulp) : ℚ) * ulp

/-! ## Loops -/

/-- The loop `for (i = 0; i < n; i++) s = body(i, s)`. -/
def forLoop {σ : Type} (n : Nat) (body : Nat → σ → σ) (s : σ) : σ :=
  (List.range n).foldl (fun acc i => body i acc) s

/-- The number of iterations of `for (int i = 0; i < n; i++)` for a bound `n` of type
`size_t`.  The counter is converted to `size_t` for the comparison; the increment at
`2^31 - 1` overflows, and with the two's-complement wrap to `-2^31` the counter compares
as `2^64 - 2^31`, which ends the loop for every `n` up to that value: the counter visits
`0 .. min(n, 2^31) - 1`. -/
def intCounterLimit (n : Nat) : Nat := min n 2147483648

/-- The error classes the source throws. -/
inductive Error where
  | out_of_range
  | logic_error
  deriving DecidableEq

/-- The loop `for (i = 0; i < n; i++) s = body(i, s)` with a body that may throw. -/
def forLoopM {σ : Type} (n : Nat) (body : Nat → σ → Except Error σ) (s : σ) : Except Error σ :=
  (List.range n).foldlM (fun acc i => body i acc) s

/-! ## The instantiation `GrScImage<float>` -/

/-- A value of type `float` or `double`: NaN, an infinity, or a finite number (the sign of
a zero is not represented). -/
inductive FloatValue where
  | nan
  | posInf
  | negInf
  | finite (q : ℚ)
  deriving DecidableEq

namespace FloatValue

/-- The comparison `a < b` (and `b > a`): false as soon as one side is NaN. -/
def lt : FloatValue → FloatValue → Bool
  | finite a, finite b => decide (a < b)
  | finite _, posInf => true
  | negInf, finite _ => true
  | negInf, posInf => true
  | _, _ => false

/-- The `double` product `a * b`: NaN for a NaN operand and for infinity times zero. -/
def mul : FloatValue → FloatValue → FloatValue
  | finite a, finite b => finite (roundRat 53 (a * b))
  | finite a, posInf => if a = 0 then nan else if 0 < a then posInf else negInf
  | finite a, negInf => if a = 0 then nan else if 0 < a then negInf else posInf
  | posInf, finite b => if b = 0 then nan else if 0 < b then posInf else negInf
  | negInf, finite b => if b = 0 then nan else if 0 < b then negInf else posInf
  | posInf, posInf => posInf
  | negInf, negInf => posInf
  | posInf, negInf => negInf
  | negInf, posInf => negInf
  | nan, _ => nan
  | _, nan => nan

/-- The `double` sum `a + b`: NaN for a NaN operand and for infinities of opposite sign. -/
def add : FloatValue → FloatValue → FloatValue
  | finite a, finite b => finite (roundRat 53 (a + b))
  | finite _, posInf => posInf
  | finite _, negInf => negInf
  | posInf, finite _ => posInf
  | negInf, finite _ => negInf
  | posInf, posInf => posInf
  | negInf, negInf => negInf
  | posInf, negInf => nan
  | negInf, posInf => nan
  | nan, _ => nan
  | _, nan => nan

/-- The conversion `static_cast<float>(value)` of a `double`: a 24 bit significand, steps of
`2^-149` below `2^-126`, an infinity from `2^128` on; NaN and the infinities are kept. -/
def narrow : FloatValue → FloatValue
  | finite q =>
    let r : ℚ :=
      if |q| < (2 : ℚ) ^ (-126 : Int) then
        (nearestEven (q / (2 : ℚ) ^ (-149 : Int)) : ℚ) * (2 : ℚ) ^ (-149 : Int)
      else roundRat 24 q
    if (2 : ℚ) ^ (128 : Int) ≤ r then posInf
    else if r ≤ -(2 : ℚ) ^ (128 : Int) then negInf
    else finite r
  | v => v

/-- The value lies in the closed range `[0, 1]`, the range `[0, max_value]` of `float`. -/
def InUnitRange : FloatValue → Prop
  | finite q => 0 ≤ q ∧ q ≤ 1
  | _ => False

/-- The value is a finite number, neither NaN nor an infinity. -/
def IsFinite : FloatValue → Prop
  | finite _ => True
  | _ => False

end FloatValue

/-- The object state of `GrScImage<float>`; `_max_type` is `1.0f`. -/
structure FloatImage where
  _rows : Nat
  _cols : Nat
  _data : Nat → Nat → FloatValue

namespace FloatImage

/-- The assignment `_data[x][y] = v`. -/
def store (img : FloatImage) (x y : Nat) (v : FloatValue) : FloatImage :=
  { img with _data := fun r c => if r = x ∧ c = y then v else img._data r c }

/-- The method `clamp_value(value)` for `T = float`, `_max_type = 1.0f`. -/
def clamp_value (value : FloatValue) : FloatValue :=
  if FloatValue.lt (FloatValue.finite 1) value then FloatValue.finite 1
  else if FloatValue.lt value (FloatValue.finite 0) then FloatValue.finite 0
  else value.narrow

/-- The constructor `GrScImage(rows, cols, false)` over the fresh storage `fresh`. -/
def construct (rows cols : Nat) (fresh : Nat → Nat → FloatValue) : FloatImage :=
  forLoop rows (fun r s => forLoop cols (fun c s => s.store r c (FloatValue.finite 0)) s)
    { _rows := rows, _cols := cols, _data := fresh }

/-- The accessor `get_rows()`. -/
def get_rows (img : FloatImage) : Nat := img._rows

/-- The accessor `get_cols()`. -/
def get_cols (img : FloatImage) : Nat := img._cols

/-- The access `operator()(row, col)`, read through the returned reference. -/
def operator_call (img : FloatImage) (row col : Nat) : Except Error FloatValue :=
  if row ≥ img._rows ∨ col ≥ img._cols then Except.error Error.out_of_range
  else Except.ok (img._data row col)

/-- The access `operator()(row, col) = v`, an assignment through the returned reference. -/
def operator_call_assign (img : FloatImage) (row col : Nat) (v : FloatValue) :
    Except Error FloatImage :=
  if row ≥ img._rows ∨ col ≥ img._cols then Except.error Error.out_of_range
  else Except.ok (img.store row col v)

/-- The product `operator*(const GrScImage<T>& other)` for `T = float`. -/
def operator_mul (self other : FloatImage) (fresh : Nat → Nat → FloatValue) :
    Except Error FloatImage :=
  let max_rows := if self._rows > other.get_rows then self._rows else other.get_rows
  let max_cols := if self._cols > other.get_cols then self._cols else other.get_cols
  let res := construct max_rows max_cols fresh
  forLoopM max_rows (fun r res =>
    forLoopM max_cols (fun c res => do
      let val1 : FloatValue :=
        if r < self._rows ∧ c < self._cols then self._data r c else FloatValue.finite 0
      let val2 : FloatValue ←
        if r < other.get_rows ∧ c < other.get_cols then other.operator_call r c
        else Except.ok (FloatValue.finite 0)
      let result : FloatValue := FloatValue.mul val1 val2
      res.operator_call_assign r c (clamp_value result)) res) res

/-- The sum `operator+(const GrScImage<T>& other)` for `T = float`. -/
def operator_add (self other : FloatImage) (fresh : Nat → Nat → FloatValue) :
    Except Error FloatImage :=
  let max_rows := if self._rows > other.get_rows then self._rows else other.get_rows
  let max_cols := if self._cols > other.get_cols then self._cols else other.get_cols
  let res := construct max_rows max_cols fresh
  forLoopM max_rows (fun r res =>
    forLoopM max_cols (fun c res => do
      let val1 : FloatValue :=
        if r < self._rows ∧ c < self._cols then self._data r c else FloatValue.finite 0
      let val2 : FloatValue ←
        if r < other.get_rows ∧ c < other.get_cols then other.operator_call r c
        else Except.ok (FloatValue.finite 0)
      let result : FloatValue := FloatValue.add val1 val2
      res.operator_call_assign r c (clamp_value result)) res) res

/-- The product `operator*(const T num)` for `T = float`. -/
def operator_mul_scalar (self : FloatImage) (num : FloatValue)
    (fresh : Nat → Nat → FloatValue) : Except Error FloatImage :=
  let res := construct self._rows self._cols fresh
  forLoopM self._rows (fun r res =>
    forLoopM self._cols (fun c res =>
      let result : FloatValue := FloatValue.mul (self._data r c) num
      res.operator_call_assign r c (clamp_value result)) res) res

/-- The sum `operator+(const T num)` for `T = float`. -/
def operator_add_scalar (self : FloatImage) (num : FloatValue)
    (fresh : Nat → Nat → FloatValue) : Except Error FloatImage :=
  let res := construct self._rows self._cols fresh
  forLoopM self._rows (fun r res =>
    forLoopM self._cols (fun c res =>
      let result : FloatValue := FloatValue.add (self._data r c) num
      res.operator_call_assign r c (clamp_value result)) res) res

/-- The operand value the binary operators read at `(r, c)`: the stored cell inside the
operand, `T{}` outside. -/
def padded (img : FloatImage) (r c : Nat) : FloatValue :=
  if r < img._rows ∧ c < img._cols then img._data r c else FloatValue.finite 0

/-- Every grid cell is a finite number, neither NaN nor an infinity. -/
def Finite (img : FloatImage) : Prop :=
  ∀ r c, r < img._rows → c < img._cols → (img._data r c).IsFinite

/-- The value-range invariant for `float`: every grid cell lies in `[0, 1]`. -/
def InRange (img : FloatImage) : Prop :=
  ∀ r c, r < img._rows → c < img._cols → (img._data r c).InUnitRange

end FloatImage

/-! ## The image -/

/-- The object state of `GrScImage<T>`: `_rows`, `_cols` and the cells `_data[r][c]`. -/
structure GrScImage (T : PixelType) where
  _rows : Nat
  _cols : Nat
  _data : Nat → Nat → Cell T

namespace GrScImage

variable {T : PixelType}

/-- The assignment `_data[x][y] = v`. -/
def store (img : GrScImage T) (x y : Nat) (v : Cell T) : GrScImage T :=
  { img with _data := fun r c => if r = x ∧ c = y then v else img._data r c }

/-- The method `draw_circle(center_x, center_y, radius, cell_value)`: the state afterwards. -/
def draw_circle (img : GrScImage T) (center_x center_y radius : Nat) (cell_value : Cell T) :
    GrScImage T :=
  let radius_square : Int := wrapLongLong (toLongLong radius * toLongLong radius)
  forLoop img._rows (fun x s =>
    forLoop img._cols (fun y s =>
      let dx : Int := roundToDouble (wrapLongLong (toLongLong x - toLongLong center_x))
      let dy : Int := roundToDouble (wrapLongLong (toLongLong y - toLongLong center_y))
      let distance_square : Int :=
        roundToDouble (roundToDouble (dx * dx) + roundToDouble (dy * dy))
      if distance_square ≤ roundToDouble radius_square then s.store x y cell_value else s) s) img

/-- The method `clamp_value(value)`; `value` is the (integer valued) `double` argument. -/
def clamp_value (T : PixelType) (value : Int) : Cell T :=
  if value > roundToDouble (max_type T).val then max_type T
  else if value < 0 then convert T 0
  else convert T value

/-- The constructor `GrScImage(rows, cols, is_fill)`.  `fresh` is the content of the
newly allocated storage and `dice r c` the value `dice.roll()` returns for cell `(r, c)`. -/
def construct (T : PixelType) (rows cols : Nat) (is_fill : Bool)
    (fresh dice : Nat → Nat → Cell T) : GrScImage T :=
  let img : GrScImage T := { _rows := rows, _cols := cols, _data := fresh }
  if is_fill then
    forLoop rows (fun r s => forLoop cols (fun c s => s.store r c (dice r c)) s) img
  else
    forLoop rows (fun r s => forLoop cols (fun c s => s.store r c (convert T 0)) s) img

/-- The accessor `get_rows()`. -/
def get_rows (img : GrScImage T) : Nat := img._rows

/-- The accessor `get_cols()`. -/
def get_cols (img : GrScImage T) : Nat := img._cols

/-- The access `operator()(row, col)`, read through the returned reference. -/
def operator_call (img : GrScImage T) (row col : Nat) : Except Error (Cell T) :=
  if row ≥ img._rows ∨ col ≥ img._cols then Except.error Error.out_of_range
  else Except.ok (img._data row col)

/-- The access `operator()(row, col) = v`, an assignment through the returned reference. -/
def operator_call_assign (img : GrScImage T) (row col : Nat) (v : Cell T) :
    Except Error (GrScImage T) :=
  if row ≥ img._rows ∨ col ≥ img._cols then Except.error Error.out_of_range
  else Except.ok (img.store row col v)

/-- The complement `operator!()` with its `int` counters (lines 120-121): the state of the
receiver afterwards. -/
def operator_not (img : GrScImage T) : GrScImage T :=
  forLoop (intCounterLimit img._rows) (fun r s =>
    forLoop (intCounterLimit img._cols) (fun c s =>
      s.store r c (convert T ((max_type T).val - (s._data r c).val))) s) img

/-- The comparison `operator==(other)` with its `int` counters (lines 134-135).  The loop
state is the value already returned, if any. -/
def operator_eq (self other : GrScImage T) : Except Error Bool :=
  if self._rows ≠ other.get_rows ∨ self._cols ≠ other.get_cols then Except.ok false
  else do
    let ret ← forLoopM (intCounterLimit self._rows) (fun r (ret : Option Bool) =>
      forLoopM (intCounterLimit self._cols) (fun c (ret : Option Bool) =>
        match ret with
        | some b => Except.ok (some b)
        | none => do
          let v ← other.operator_call r c
          if v ≠ self._data r c then Except.ok (some false) else Except.ok none) ret) none
    match ret with
    | some b => Except.ok b
    | none => Except.ok true

/-- The product `operator*(const GrScImage<T>& other)`; `fresh`, `dice` as for the constructor. -/
def operator_mul (self other : GrScImage T) (fresh dice : Nat → Nat → Cell T) :
    Except Error (GrScImage T) :=
  let max_rows := if self._rows > other.get_rows then self._rows else other.get_rows
  let max_cols := if self._cols > other.get_cols then self._cols else other.get_cols
  let res := construct T max_rows max_cols false fresh dice
  forLoopM max_rows (fun r res =>
    forLoopM max_cols (fun c res => do
      let val1 : Cell T := if r < self._rows ∧ c < self._cols then self._data r c else zero T
      let val2 : Cell T ←
        if r < other.get_rows ∧ c < other.get_cols then other.operator_call r c
        else Except.ok (zero T)
      if T = PixelType.bool then
        res.operator_call_assign r c (convert T (if val1.val ≠ 0 ∧ val2.val ≠ 0 then 1 else 0))
      else
        let result : Int := roundToDouble (roundToDouble val1.val * roundToDouble val2.val)
        res.operator_call_assign r c (clamp_value T result)) res) res

/-- The product `operator*(const T num)`. -/
def operator_mul_scalar (self : GrScImage T) (num : Cell T) (fresh dice : Nat → Nat → Cell T) :
    Except Error (GrScImage T) :=
  let res := construct T self._rows self._cols false fresh dice
  forLoopM self._rows (fun r res =>
    forLoopM self._cols (fun c res =>
      if T = PixelType.bool then
        res.operator_call_assign r c
          (convert T (if (self._data r c).val ≠ 0 ∧ num.val ≠ 0 then 1 else 0))
      else
        let result : Int :=
          roundToDouble (roundToDouble (self._data r c).val * roundToDouble num.val)
        res.operator_call_assign r c (clamp_value T result)) res) res

/-- The sum `operator+(const GrScImage<T>& other)`. -/
def operator_add (self other : GrScImage T) (fresh dice : Nat → Nat → Cell T) :
    Except Error (GrScImage T) :=
  let max_rows := if self._rows > other.get_rows then self._rows else other.get_rows
  let max_cols := if self._cols > other.get_cols then self._cols else other.get_cols
  let res := construct T max_rows max_cols false fresh dice
  forLoopM max_rows (fun r res =>
    forLoopM max_cols (fun c res => do
      let val1 : Cell T := if r < self._rows ∧ c < self._cols then self._data r c else zero T
      let val2 : Cell T ←
        if r < other.get_rows ∧ c < other.get_cols then other.operator_call r c
        else Except.ok (zero T)
      if T = PixelType.bool then
        res.operator_call_assign r c (convert T (if val1.val ≠ 0 ∨ val2.val ≠ 0 then 1 else 0))
      else
        let result : Int := roundToDouble (roundToDouble val1.val + roundToDouble val2.val)
        res.operator_call_assign r c (clamp_value T result)) res) res

/-- The sum `operator+(const T num)`. -/
def operator_add_scalar (self : GrScImage T) (num : Cell T) (fresh dice : Nat → Nat → Cell T) :
    Except Error (GrScImage T) :=
  let res := construct T self._rows self._cols false fresh dice
  forLoopM self._rows (fun r res =>
    forLoopM self._cols (fun c res =>
      if T = PixelType.bool then
        res.operator_call_assign r c
          (convert T (if (self._data r c).val ≠ 0 ∨ num.val ≠ 0 then 1 else 0))
      else
        let result : Int :=
          roundToDouble (roundToDouble (self._data r c).val + roundToDouble num.val)
        res.operator_call_assign r c (clamp_value T result)) res) res

/-- The method `fillability()`.  The accumulator `sum_cells` holds an integer: each cell
is converted to `double` and added with the rounding of a `double` addition.  The divisor
is the `size_t` product `_rows * _cols * _max_type` converted to `double`; the product is
taken without the reduction modulo `2^64`, with which it agrees for every grid of fewer
than `2^49` cells.  The result is the `double` quotient, the exact quotient rounded to a
53 bit significand; `none` stands for the NaN or infinity that the division yields when
the divisor is zero. -/
def fillability (img : GrScImage T) : Option ℚ :=
  let sum_cells : Int :=
    forLoop img._rows (fun i s =>
      forLoop img._cols (fun j s => roundToDouble (s + roundToDouble (img._data i j).val)) s) 0
  let divisor : Int := roundToDouble (((img._rows * img._cols : Nat) : Int) * (max_type T).val)
  if divisor = 0 then none else some (roundRat 53 ((sum_cells : ℚ) / (divisor : ℚ)))

/-! ## Auxiliary definitions used in the statements -/

/-- The condition of lines 253-258 under which `draw_circle` writes cell `(x, y)`. -/
def stamps (center_x center_y radius x y : Nat) : Prop :=
  roundToDouble
      (roundToDouble
          (roundToDouble (wrapLongLong (toLongLong x - toLongLong center_x)) *
            roundToDouble (wrapLongLong (toLongLong x - toLongLong center_x))) +
        roundToDouble
          (roundToDouble (wrapLongLong (toLongLong y - toLongLong center_y)) *
            roundToDouble (wrapLongLong (toLongLong y - toLongLong center_y)))) ≤
    roundToDouble (wrapLongLong (toLongLong radius * toLongLong radius))

instance (center_x center_y radius x y : Nat) :
    Decidable (stamps center_x center_y radius x y) :=
  Int.decLe _ _

/-- The reference definition of the disk stamp: dimensions kept, and a grid cell holds
`value` if its exact squared distance to the centre is at most `radius²`, its previous
content otherwise. -/
def DrawCircleReference (img : GrScImage T) (center_x center_y radius : Nat)
    (value : Cell T) : Prop :=
  (img.draw_circle center_x center_y radius value)._rows = img._rows ∧
  (img.draw_circle center_x center_y radius value)._cols = img._cols ∧
  ∀ x y, x < img._rows → y < img._cols →
    (img.draw_circle center_x center_y radius value)._data x y =
      if ((x : Int) - center_x) ^ 2 + ((y : Int) - center_y) ^ 2 ≤ (radius : Int) ^ 2
      then value else img._data x y

/-- The operand value the binary operators read at `(r, c)` (lines 154-155 and 199-200):
the stored cell inside the operand, `T{}` outside. -/
def padded (img : GrScImage T) (r c : Nat) : Cell T :=
  if r < img._rows ∧ c < img._cols then img._data r c else zero T

/-- The value `operator*` stores in a cell whose operand values are `a` and `b`
(lines 157-163 and 177-183). -/
def mulCell (a b : Cell T) : Cell T :=
  if T = PixelType.bool then convert T (if a.val ≠ 0 ∧ b.val ≠ 0 then 1 else 0)
  else clamp_value T (roundToDouble (roundToDouble a.val * roundToDouble b.val))

/-- The value `operator+` stores in a cell whose operand values are `a` and `b`
(lines 202-208 and 222-228). -/
def addCell (a b : Cell T) : Cell T :=
  if T = PixelType.bool then convert T (if a.val ≠ 0 ∨ b.val ≠ 0 then 1 else 0)
  else clamp_value T (roundToDouble (roundToDouble a.val + roundToDouble b.val))

/-- The value-range invariant of the data model: every grid cell lies in `[0, max_value]`. -/
def InRange (img : GrScImage T) : Prop :=
  ∀ r c, r < img._rows → c < img._cols →
    0 ≤ (img._data r c).val ∧ (img._data r c).val ≤ (max_type T).val

/-- The matrix of the given dimensions holding `v` in every cell. -/
def constant (rows cols : Nat) (v : Cell T) : GrScImage T :=
  { _rows := rows, _cols := cols, _data := fun _ _ => v }

/-- The sum of all grid cells. -/
def cellSum (img : GrScImage T) : Int :=
  ∑ r ∈ Finset.range img._rows, ∑ c ∈ Finset.range img._cols, (img._data r c).val

/-- The exact density `sum / (rows * cols * max_value)` of the data model. -/
def density (img : GrScImage T) : ℚ :=
  (img.cellSum : ℚ) / (((img._rows * img._cols : Nat) : ℚ) * ((max_type T).val : ℚ))

/-- The cell `(x, y)` is one that `draw_circle` writes: it is a grid cell and the test of
lines 253-258 holds for it, so the assignment of line 259 is executed. -/
def overwrites (img : GrScImage T) (center_x center_y radius x y : Nat) : Prop :=
  x < img._rows ∧ y < img._cols ∧ stamps center_x center_y radius x y

instance (img : GrScImage T) (center_x center_y radius x y : Nat) :
    Decidable (overwrites img center_x center_y radius x y) := by
  unfold overwrites; infer_instance

/-- The significand that `roundToDouble` selects for `n` at the shift `sh`. -/
def roundedSignificand (n sh : Nat) : Nat :=
  if 2 ^ (sh - 1) < n % 2 ^ sh ∨ (n % 2 ^ sh = 2 ^ (sh - 1) ∧ n / 2 ^ sh % 2 = 1)
  then n / 2 ^ sh + 1 else n / 2 ^ sh

/-- The number of grid cells of a `rows × cols` grid whose exact squared distance to the
centre is at most `radius²`. -/
def diskCount (rows cols center_x center_y radius : Nat) : Nat :=
  ((Finset.range rows ×ˢ Finset.range cols).filter (fun p =>
    ((p.1 : Int) - center_x) ^ 2 + ((p.2 : Int) - center_y) ^ 2 ≤ (radius : Int) ^ 2)).card

/-! ## Facts about the machine arithmetic -/

theorem roundToDouble_small (z : Int) (h : z.natAbs < 9007199254740992) :
    roundToDouble z = z := by
  simp [roundToDouble, h]

theorem roundToDouble_nonneg (z : Int) (h : 0 ≤ z) : 0 ≤ roundToDouble z := by
  unfold roundToDouble
  simp only
  split
  · exact h
  · exact Int.mul_nonneg (Int.sign_nonneg.mpr h) (Int.ofNat_nonneg _)

/-- Rounding never takes a value of magnitude `2^53` or more below `2^53`. -/
theorem roundToDouble_large_natAbs (z : Int) (h : 9007199254740992 ≤ z.natAbs) :
    9007199254740992 ≤ (roundToDouble z).natAbs := by
  have hne : z.natAbs ≠ 0 := by omega
  have he : 53 ≤ Nat.log2 z.natAbs := (Nat.le_log2 hne).mpr (by simpa using h)
  have hpow : 2 ^ Nat.log2 z.natAbs ≤ z.natAbs := Nat.log2_self_le hne
  have hsplit : 2 ^ Nat.log2 z.natAbs = 2 ^ 52 * 2 ^ (Nat.log2 z.natAbs - 52) := by
    rw [← Nat.pow_add]; congr 1; omega
  have hpos : 0 < 2 ^ (Nat.log2 z.natAbs - 52) := Nat.pow_pos (by decide)
  have hq : 2 ^ 52 ≤ z.natAbs / 2 ^ (Nat.log2 z.natAbs - 52) := by
    rw [Nat.le_div_iff_mul_le hpos, ← hsplit]; exact hpow
  have h53 : (9007199254740992 : Nat) ≤ 2 ^ Nat.log2 z.natAbs := by
    calc (9007199254740992 : Nat) = 2 ^ 53 := by norm_num
      _ ≤ 2 ^ Nat.log2 z.natAbs := Nat.pow_le_pow_right (by decide) he
  have hz : z ≠ 0 := fun h0 => hne (by simp [h0])
  unfold roundToDouble
  simp only
  rw [if_neg (by omega)]
  rw [Int.natAbs_mul, Int.natAbs_sign_of_nonzero hz, Nat.one_mul, Int.natAbs_ofNat]
  calc 9007199254740992 ≤ 2 ^ Nat.log2 z.natAbs := h53
    _ = 2 ^ 52 * 2 ^ (Nat.log2 z.natAbs - 52) := hsplit
    _ ≤ (z.natAbs / 2 ^ (Nat.log2 z.natAbs - 52)) * 2 ^ (Nat.log2 z.natAbs - 52) :=
        Nat.mul_le_mul_right _ hq
    _ ≤ _ := by
        apply Nat.mul_le_mul_right
        split <;> omega

theorem roundToDouble_large (z : Int) (h : 9007199254740992 ≤ z) :
    9007199254740992 ≤ roundToDouble z := by
  have h1 := roundToDouble_large_natAbs z (by omega)
  have h2 := roundToDouble_nonneg z (by omega)
  omega

/-- The square computed in `double` is the exact square while that is below `2^53`. -/
theorem double_square_small (z : Int) (h : z * z < 9007199254740992) :
    roundToDouble (roundToDouble z * roundToDouble z) = z * z := by
  have hz : z.natAbs < 9007199254740992 := by
    have h1 : (z.natAbs : Int) ≤ (z.natAbs : Int) * (z.natAbs : Int) := by
      exact_mod_cast Nat.le_mul_self z.natAbs
    rw [Int.natAbs_mul_self'] at h1
    omega
  rw [roundToDouble_small z hz]
  exact roundToDouble_small _ (by have := mul_self_nonneg z; omega)

/-- The square computed in `double` is at least `2^53` once the exact square is. -/
theorem double_square_large (z : Int) (h : 9007199254740992 ≤ z * z) :
    9007199254740992 ≤ roundToDouble (roundToDouble z * roundToDouble z) := by
  apply roundToDouble_large
  by_cases hz : z.natAbs < 9007199254740992
  · rw [roundToDouble_small z hz]; exact h
  · have h1 := roundToDouble_large_natAbs z (by omega)
    have h2 : (9007199254740992 : Int) ≤ ((roundToDouble z).natAbs : Int) := by exact_mod_cast h1
    have h3 : roundToDouble z * roundToDouble z =
        ((roundToDouble z).natAbs : Int) * ((roundToDouble z).natAbs : Int) := by
      rw [Int.natAbs_mul_self']
    rw [h3]
    nlinarith

theorem double_square_nonneg (z : Int) :
    0 ≤ roundToDouble (roundToDouble z * roundToDouble z) :=
  roundToDouble_nonneg _ (mul_self_nonneg _)

/-- The comparison of line 258 decides the exact integer inequality whenever the right-hand
side is below `2^53`. -/
theorem distance_test_exact (dx dy rs : Int) (h0 : 0 ≤ rs) (h : rs < 9007199254740992) :
    roundToDouble (roundToDouble (roundToDouble dx * roundToDouble dx) +
        roundToDouble (roundToDouble dy * roundToDouble dy)) ≤ roundToDouble rs ↔
      dx * dx + dy * dy ≤ rs := by
  rw [roundToDouble_small rs (by omega)]
  have hx0 := mul_self_nonneg dx
  have hy0 := mul_self_nonneg dy
  by_cases hx : dx * dx < 9007199254740992
  · by_cases hy : dy * dy < 9007199254740992
    · rw [double_square_small dx hx, double_square_small dy hy]
      by_cases hs : dx * dx + dy * dy < 9007199254740992
      · rw [roundToDouble_small _ (by omega)]
      · have := roundToDouble_large (dx * dx + dy * dy) (by omega)
        constructor <;> intro h' <;> omega
    · have h1 := double_square_large dy (by omega)
      have h2 := double_square_nonneg dx
      have := roundToDouble_large _ (show (9007199254740992 : Int) ≤
        roundToDouble (roundToDouble dx * roundToDouble dx) +
          roundToDouble (roundToDouble dy * roundToDouble dy) by omega)
      constructor <;> intro h' <;> omega
  · have h1 := double_square_large dx (by omega)
    have h2 := double_square_nonneg dy
    have := roundToDouble_large _ (show (9007199254740992 : Int) ≤
      roundToDouble (roundToDouble dx * roundToDouble dx) +
        roundToDouble (roundToDouble dy * roundToDouble dy) by omega)
    constructor <;> intro h' <;> omega

theorem wrapLongLong_eq (z : Int) (h1 : -9223372036854775808 ≤ z)
    (h2 : z < 9223372036854775808) : wrapLongLong z = z := by
  unfold wrapLongLong; omega

theorem toLongLong_eq (n : Nat) (h : n < 9223372036854775808) : toLongLong n = n := by
  unfold toLongLong; exact wrapLongLong_eq _ (by omega) (by omega)


theorem roundToDouble_eq_zero (z : Int) : roundToDouble z = 0 ↔ z = 0 := by
  constructor
  · intro h
    by_cases hz : z.natAbs < 9007199254740992
    · rw [roundToDouble_small z hz] at h; exact h
    · have := roundToDouble_large_natAbs z (by omega)
      rw [h] at this
      simp at this
  · intro h
    rw [h]
    exact roundToDouble_small 0 (by decide)

/-! ## Rounding of rationals -/

theorem roundRat_zero (p : Nat) : roundRat p 0 = 0 := by
  simp [roundRat]

/-- The exponent of a positive rational is determined by the binade it lies in. -/
theorem log_two_eq (q : ℚ) (e : Int) (h1 : (2 : ℚ) ^ e ≤ q) (h2 : q < (2 : ℚ) ^ (e + 1)) :
    Int.log 2 q = e := by
  have hq : 0 < q := lt_of_lt_of_le (zpow_pos (by norm_num) e) h1
  have ha : e ≤ Int.log 2 q :=
    (Int.zpow_le_iff_le_log (by norm_num) hq).mp (by exact_mod_cast h1)
  have hb : Int.log 2 q < e + 1 :=
    (Int.lt_zpow_iff_log_lt (by norm_num) hq).mp (by exact_mod_cast h2)
  omega

theorem roundRat_pos (p : Nat) (q : ℚ) (hq : 0 < q) :
    roundRat p q =
      (nearestEven (q / (2 : ℚ) ^ (Int.log 2 q - ((p : Int) - 1))) : ℚ) *
        (2 : ℚ) ^ (Int.log 2 q - ((p : Int) - 1)) := by
  unfold roundRat
  rw [if_neg (ne_of_gt hq), abs_of_pos hq, if_neg (not_lt.mpr (le_of_lt hq))]
  simp only [one_mul]

theorem nearestEven_error (m : ℚ) : |(nearestEven m : ℚ) - m| ≤ 1 / 2 := by
  have h1 : (⌊m⌋ : ℚ) ≤ m := Int.floor_le m
  have h2 : m < (⌊m⌋ : ℚ) + 1 := Int.lt_floor_add_one m
  unfold nearestEven
  split
  · next h =>
    push_cast
    rw [abs_le]
    rcases h with h | h
    · constructor <;> linarith
    · constructor <;> linarith [h.1]
  · next h =>
    rw [not_or] at h
    have h3 : m - ⌊m⌋ ≤ 1 / 2 := not_lt.mp h.1
    rw [abs_le]
    constructor <;> linarith

theorem nearestEven_bounds (m : ℚ) : ⌊m⌋ ≤ nearestEven m ∧ nearestEven m ≤ ⌊m⌋ + 1 := by
  unfold nearestEven
  split <;> omega

/-- An integer closer than one half to `m` is the one `nearestEven` selects. -/
theorem nearestEven_of_near (m : ℚ) (n : Int) (h : |(n : ℚ) - m| < 1 / 2) :
    nearestEven m = n := by
  have herr := nearestEven_error m
  rw [abs_le] at herr
  rw [abs_lt] at h
  have h1 : ((nearestEven m : Int) : ℚ) < (n : ℚ) + 1 := by linarith [herr.2, h.1]
  have h2 : (n : ℚ) < ((nearestEven m : Int) : ℚ) + 1 := by linarith [herr.1, h.2]
  have h1' : nearestEven m < n + 1 := by exact_mod_cast h1
  have h2' : n < nearestEven m + 1 := by exact_mod_cast h2
  omega

/-- The rounding of a positive rational whose binade and nearest significand are known. -/
theorem roundRat_of_near (p : Nat) (q : ℚ) (e n : Int)
    (h1 : (2 : ℚ) ^ e ≤ q) (h2 : q < (2 : ℚ) ^ (e + 1))
    (hn : |(n : ℚ) - q / (2 : ℚ) ^ (e - ((p : Int) - 1))| < 1 / 2) :
    roundRat p q = (n : ℚ) * (2 : ℚ) ^ (e - ((p : Int) - 1)) := by
  have hq : 0 < q := lt_of_lt_of_le (zpow_pos (by norm_num) e) h1
  rw [roundRat_pos p q hq, log_two_eq q e h1 h2, nearestEven_of_near _ n hn]

/-- The scaled value of a positive rational lies in `[2^(p-1), 2^p)`. -/
theorem scaled_bounds (p : Nat) (q : ℚ) (hq : 0 < q) :
    (2 : ℚ) ^ ((p : Int) - 1) ≤ q / (2 : ℚ) ^ (Int.log 2 q - ((p : Int) - 1)) ∧
    q / (2 : ℚ) ^ (Int.log 2 q - ((p : Int) - 1)) < (2 : ℚ) ^ (p : Int) := by
  have hu : (0 : ℚ) < (2 : ℚ) ^ (Int.log 2 q - ((p : Int) - 1)) := zpow_pos (by norm_num) _
  have h1 : (2 : ℚ) ^ Int.log 2 q ≤ q := by
    exact_mod_cast Int.zpow_log_le_self (b := 2) (by norm_num) hq
  have h2 : q < (2 : ℚ) ^ (Int.log 2 q + 1) := by
    exact_mod_cast Int.lt_zpow_succ_log_self (b := 2) (by norm_num) q
  constructor
  · rw [le_div_iff₀ hu, ← zpow_add₀ (by norm_num : (2 : ℚ) ≠ 0)]
    have : (p : Int) - 1 + (Int.log 2 q - ((p : Int) - 1)) = Int.log 2 q := by ring
    rw [this]; exact h1
  · rw [div_lt_iff₀ hu, ← zpow_add₀ (by norm_num : (2 : ℚ) ≠ 0)]
    have : (p : Int) + (Int.log 2 q - ((p : Int) - 1)) = Int.log 2 q + 1 := by ring
    rw [this]; exact h2

theorem roundRat_one (p : Nat) (hp : 1 ≤ p) : roundRat p 1 = 1 := by
  rw [roundRat_pos p 1 (by norm_num), Int.log_one_right]
  have hexp : (0 : Int) - ((p : Int) - 1) = -(((p - 1 : Nat) : Int)) := by omega
  rw [hexp]
  have hm : (1 : ℚ) / (2 : ℚ) ^ (-(((p - 1 : Nat) : Int))) =
      (((2 ^ (p - 1) : Nat) : Int) : ℚ) := by
    rw [zpow_neg, zpow_natCast]
    push_cast
    field_simp
  rw [hm]
  have hk : nearestEven ((((2 ^ (p - 1) : Nat) : Int) : ℚ)) = ((2 ^ (p - 1) : Nat) : Int) := by
    unfold nearestEven
    rw [Int.floor_intCast]
    rw [if_neg]
    rw [sub_self]
    norm_num
  rw [hk, zpow_neg, zpow_natCast]
  push_cast
  field_simp

/-- On `[0, 1]` the rounding stays in `[0, 1]` and moves its argument by at most half a
unit in the last place below 1, `2^(-p-1)`. -/
theorem roundRat_unit (p : Nat) (hp : 1 ≤ p) (q : ℚ) (h0 : 0 ≤ q) (h1 : q ≤ 1) :
    0 ≤ roundRat p q ∧ roundRat p q ≤ 1 ∧
    |roundRat p q - q| ≤ (2 : ℚ) ^ (-(p : Int) - 1) := by
  have hpow : (0 : ℚ) < (2 : ℚ) ^ (-(p : Int) - 1) := zpow_pos (by norm_num) _
  rcases eq_or_lt_of_le h0 with hq0 | hq0
  · rw [← hq0, roundRat_zero]
    simp [le_of_lt hpow]
  rcases eq_or_lt_of_le h1 with hq1 | hq1
  · rw [hq1, roundRat_one p hp]
    simp [le_of_lt hpow]
  have he : Int.log 2 q < 0 := by
    apply (Int.lt_zpow_iff_log_lt (b := 2) (by norm_num) hq0).mp
    simpa using hq1
  have hu : (0 : ℚ) < (2 : ℚ) ^ (Int.log 2 q - ((p : Int) - 1)) := zpow_pos (by norm_num) _
  obtain ⟨hm1, hm2⟩ := scaled_bounds p q hq0
  have hm0 : (0 : ℚ) ≤ q / (2 : ℚ) ^ (Int.log 2 q - ((p : Int) - 1)) :=
    le_of_lt (div_pos hq0 hu)
  obtain ⟨hk1, hk2⟩ := nearestEven_bounds (q / (2 : ℚ) ^ (Int.log 2 q - ((p : Int) - 1)))
  have herr := nearestEven_error (q / (2 : ℚ) ^ (Int.log 2 q - ((p : Int) - 1)))
  have hfl0 : 0 ≤ ⌊q / (2 : ℚ) ^ (Int.log 2 q - ((p : Int) - 1))⌋ := Int.floor_nonneg.mpr hm0
  have hflp : ⌊q / (2 : ℚ) ^ (Int.log 2 q - ((p : Int) - 1))⌋ < ((2 ^ p : Nat) : Int) := by
    rw [Int.floor_lt]
    have : ((((2 ^ p : Nat) : Int)) : ℚ) = (2 : ℚ) ^ (p : Int) := by
      rw [zpow_natCast]; push_cast; rfl
    rw [this]; exact hm2
  rw [roundRat_pos p q hq0]
  set u := (2 : ℚ) ^ (Int.log 2 q - ((p : Int) - 1)) with hu_def
  set k := nearestEven (q / u) with hk_def
  have hk0 : (0 : ℚ) ≤ (k : ℚ) := by exact_mod_cast (le_trans hfl0 hk1)
  have hkp : (k : ℚ) ≤ (2 : ℚ) ^ (p : Int) := by
    have : k ≤ ((2 ^ p : Nat) : Int) := by omega
    have h' : (k : ℚ) ≤ ((((2 ^ p : Nat) : Int)) : ℚ) := by exact_mod_cast this
    rw [zpow_natCast]; push_cast at h'; exact h'
  refine ⟨mul_nonneg hk0 (le_of_lt hu), ?_, ?_⟩
  · calc (k : ℚ) * u ≤ (2 : ℚ) ^ (p : Int) * u := mul_le_mul_of_nonneg_right hkp (le_of_lt hu)
      _ = (2 : ℚ) ^ (Int.log 2 q + 1) := by
          rw [hu_def, ← zpow_add₀ (by norm_num : (2 : ℚ) ≠ 0)]
          congr 1; ring
      _ ≤ 1 := zpow_le_one_of_nonpos₀ (by norm_num) (by omega)
  · have hq : q = (q / u) * u := by field_simp
    have hdiff : (k : ℚ) * u - q = ((k : ℚ) - q / u) * u := by
      rw [sub_mul, ← hq]
    rw [hdiff, abs_mul, abs_of_pos hu]
    calc |(k : ℚ) - q / u| * u ≤ (1 / 2) * u := mul_le_mul_of_nonneg_right herr (le_of_lt hu)
      _ = (2 : ℚ) ^ (Int.log 2 q - (p : Int)) := by
          rw [hu_def]
          have : Int.log 2 q - ((p : Int) - 1) = (Int.log 2 q - (p : Int)) + 1 := by ring
          rw [this, zpow_add₀ (by norm_num : (2 : ℚ) ≠ 0)]
          ring
      _ ≤ (2 : ℚ) ^ (-(p : Int) - 1) := zpow_le_zpow_right₀ (by norm_num) (by omega)

/-- The `double` nearest to `27 / 127`. -/
theorem roundRat_27_127 :
    roundRat 53 (27 / 127) = 7659665507968718 / 36028797018963968 := by
  rw [roundRat_of_near 53 (27 / 127) (-3) 7659665507968718 (by norm_num) (by norm_num)
    (by norm_num [abs_lt])]
  norm_num

/-- The `double` nearest to `100 / 127`. -/
theorem roundRat_100_127 :
    roundRat 53 (100 / 127) = 7092282877748813 / 9007199254740992 := by
  rw [roundRat_of_near 53 (100 / 127) (-1) 7092282877748813 (by norm_num) (by norm_num)
    (by norm_num [abs_lt])]
  norm_num

/-- The `double` nearest to `5 / 9`, `0x1.1c71c71c71c72p-1`. -/
theorem roundRat_5_9 :
    roundRat 53 (5 / 9) = 5003999585967218 / 9007199254740992 := by
  rw [roundRat_of_near 53 (5 / 9) (-1) 5003999585967218 (by norm_num) (by norm_num)
    (by norm_num [abs_lt])]
  norm_num

/-! ## Loop rules -/

theorem forLoop_succ {σ : Type} (n : Nat) (body : Nat → σ → σ) (s : σ) :
    forLoop (n + 1) body s = body n (forLoop n body s) := by
  simp [forLoop, List.range_succ, List.foldl_append]

theorem forLoopM_succ {σ : Type} (n : Nat) (body : Nat → σ → Except Error σ) (s : σ) :
    forLoopM (n + 1) body s = forLoopM n body s >>= body n := by
  simp [forLoopM, List.range_succ, List.foldlM_append]

/-- Invariant rule for a loop that cannot throw. -/
theorem forLoop_inv {σ : Type} (P : Nat → σ → Prop) (n : Nat) (body : Nat → σ → σ) (s : σ)
    (h0 : P 0 s) (hstep : ∀ i t, i < n → P i t → P (i + 1) (body i t)) :
    P n (forLoop n body s) := by
  induction n with
  | zero => simpa [forLoop] using h0
  | succ k ih =>
    rw [forLoop_succ]
    exact hstep k _ (Nat.lt_succ_self k)
      (ih (fun i t hi hP => hstep i t (Nat.lt_succ_of_lt hi) hP))

/-- Invariant rule for a loop whose body may throw: if every iteration started in a state
satisfying the invariant returns normally and re-establishes it, so does the loop. -/
theorem forLoopM_inv {σ : Type} (P : Nat → σ → Prop) (n : Nat)
    (body : Nat → σ → Except Error σ) (s : σ) (h0 : P 0 s)
    (hstep : ∀ i t, i < n → P i t → ∃ t', body i t = Except.ok t' ∧ P (i + 1) t') :
    ∃ t, forLoopM n body s = Except.ok t ∧ P n t := by
  induction n with
  | zero => exact ⟨s, by simp [forLoopM, pure, Except.pure], h0⟩
  | succ k ih =>
    obtain ⟨t, ht, hP⟩ := ih (fun i t hi hP => hstep i t (Nat.lt_succ_of_lt hi) hP)
    obtain ⟨t', ht', hP'⟩ := hstep k t (Nat.lt_succ_self k) hP
    refine ⟨t', ?_, hP'⟩
    rw [forLoopM_succ, ht]
    simpa [bind, Except.bind] using ht'

/-- A row-major double loop whose body rewrites exactly the cell it visits rewrites every
cell of the `n × m` block once and nothing else. -/
theorem nested_forLoop_cells (g : Nat → Nat → Cell T → Cell T)
    (body : Nat → Nat → GrScImage T → GrScImage T)
    (hbody : ∀ x y s, (body x y s)._rows = s._rows ∧ (body x y s)._cols = s._cols ∧
      ∀ r c, (body x y s)._data r c =
        if r = x ∧ c = y then g x y (s._data x y) else s._data r c)
    (n m : Nat) (img : GrScImage T) :
    (forLoop n (fun x s => forLoop m (fun y s => body x y s) s) img)._rows = img._rows ∧
    (forLoop n (fun x s => forLoop m (fun y s => body x y s) s) img)._cols = img._cols ∧
    ∀ r c, (forLoop n (fun x s => forLoop m (fun y s => body x y s) s) img)._data r c =
      if r < n ∧ c < m then g r c (img._data r c) else img._data r c := by
  refine forLoop_inv
    (fun x (s : GrScImage T) => s._rows = img._rows ∧ s._cols = img._cols ∧
      ∀ r c, s._data r c = if r < x ∧ c < m then g r c (img._data r c) else img._data r c)
    n _ img ⟨rfl, rfl, fun r c => by simp⟩ ?_
  intro x s _ hs
  have h := forLoop_inv
    (fun y (t : GrScImage T) => t._rows = img._rows ∧ t._cols = img._cols ∧
      ∀ r c, t._data r c =
        if (r < x ∧ c < m) ∨ (r = x ∧ c < y) then g r c (img._data r c) else img._data r c)
    m (fun y s => body x y s) s ⟨hs.1, hs.2.1, fun r c => by rw [hs.2.2]; simp⟩ ?_
  rotate_left
  · intro y t _ ht
    obtain ⟨hr, hc, hd⟩ := hbody x y t
    refine ⟨hr.trans ht.1, hc.trans ht.2.1, fun r c => ?_⟩
    rw [hd]
    by_cases hxy : r = x ∧ c = y
    · obtain ⟨rfl, rfl⟩ := hxy
      have hold : t._data r c = img._data r c := by
        rw [ht.2.2]; simp
      simp [hold]
    · rw [if_neg hxy, ht.2.2]
      have hiff : ((r < x ∧ c < m) ∨ (r = x ∧ c < y)) ↔ ((r < x ∧ c < m) ∨ (r = x ∧ c < y + 1)) := by
        constructor
        · rintro (h | h)
          · exact Or.inl h
          · exact Or.inr ⟨h.1, Nat.lt_succ_of_lt h.2⟩
        · rintro (h | h)
          · exact Or.inl h
          · refine Or.inr ⟨h.1, ?_⟩
            have : c ≠ y := fun hcy => hxy ⟨h.1, hcy⟩
            omega
      simp only [hiff]
  · refine ⟨h.1, h.2.1, fun r c => ?_⟩
    rw [h.2.2]
    have hiff : ((r < x ∧ c < m) ∨ (r = x ∧ c < m)) ↔ (r < x + 1 ∧ c < m) := by
      constructor
      · rintro (h | h)
        · exact ⟨Nat.lt_succ_of_lt h.1, h.2⟩
        · exact ⟨by omega, h.2⟩
      · rintro ⟨h1, h2⟩
        by_cases hrx : r = x
        · exact Or.inr ⟨hrx, h2⟩
        · exact Or.inl ⟨by omega, h2⟩
    simp only [hiff]

/-! ## `draw_circle` -/

/-- A double loop that stores `v` in the visited cell when `p` holds there. -/
theorem conditional_store_cells (p : Nat → Nat → Prop) [inst : ∀ x y, Decidable (p x y)]
    (v : Cell T) (n m : Nat) (img : GrScImage T) :
    (forLoop n (fun x s =>
      forLoop m (fun y s => if p x y then s.store x y v else s) s) img)._rows = img._rows ∧
    (forLoop n (fun x s =>
      forLoop m (fun y s => if p x y then s.store x y v else s) s) img)._cols = img._cols ∧
    ∀ r c, (forLoop n (fun x s =>
      forLoop m (fun y s => if p x y then s.store x y v else s) s) img)._data r c =
      if r < n ∧ c < m ∧ p r c then v else img._data r c := by
  have h := nested_forLoop_cells (fun x y old => if p x y then v else old)
    (fun x y (s : GrScImage T) => if p x y then s.store x y v else s)
    (by
      intro x y s
      by_cases hs : p x y
      · simp [hs, store]
      · simp only [if_neg hs, true_and]
        intro r c
        split
        · next h => rw [h.1, h.2]
        · rfl)
    n m img
  refine ⟨h.1, h.2.1, fun r c => ?_⟩
  rw [h.2.2 r c]
  by_cases h1 : r < n <;> by_cases h2 : c < m <;> by_cases h3 : p r c <;> simp [h1, h2, h3]

/-- What `draw_circle` does, cell by cell, for all arguments. -/
theorem draw_circle_cells (img : GrScImage T) (center_x center_y radius : Nat)
    (cell_value : Cell T) :
    (img.draw_circle center_x center_y radius cell_value)._rows = img._rows ∧
    (img.draw_circle center_x center_y radius cell_value)._cols = img._cols ∧
    ∀ x y, (img.draw_circle center_x center_y radius cell_value)._data x y =
      if x < img._rows ∧ y < img._cols ∧ stamps center_x center_y radius x y
      then cell_value else img._data x y :=
  conditional_store_cells (stamps center_x center_y radius) cell_value img._rows img._cols img

/-- Below these bounds the test of `draw_circle` is the exact one. -/
theorem stamps_iff (center_x center_y radius x y : Nat)
    (hr : radius ≤ 94906265)
    (hcx : center_x < 9223372036854775808) (hcy : center_y < 9223372036854775808)
    (hx : x < 9223372036854775808) (hy : y < 9223372036854775808) :
    stamps center_x center_y radius x y ↔
      ((x : Int) - center_x) ^ 2 + ((y : Int) - center_y) ^ 2 ≤ (radius : Int) ^ 2 := by
  have hrr : (radius : Int) * radius ≤ 94906265 * 94906265 := by
    have : (radius : Int) ≤ 94906265 := by exact_mod_cast hr
    nlinarith [Int.ofNat_nonneg radius]
  have hrr0 : 0 ≤ (radius : Int) * radius := mul_self_nonneg _
  unfold stamps
  rw [toLongLong_eq x hx, toLongLong_eq y hy, toLongLong_eq center_x hcx,
    toLongLong_eq center_y hcy, toLongLong_eq radius (by omega),
    wrapLongLong_eq (x - center_x) (by omega) (by omega),
    wrapLongLong_eq (y - center_y) (by omega) (by omega),
    wrapLongLong_eq ((radius : Int) * radius) (by omega) (by omega),
    distance_test_exact _ _ _ hrr0 (by omega)]
  simp only [sq]

/-- C1, amended: for a radius up to 94906265 (so that `radius²` is below `2^53`), a centre
with both coordinates below `2^63` and a grid of at most `2^63` rows and columns,
`draw_circle` (a total function: it raises no error) keeps the dimensions and leaves in each
grid cell `value` if `(x - center_x)² + (y - center_y)² ≤ radius²`, its previous content
otherwise; the centre may lie outside the grid and the disk may extend past the edges. -/
theorem draw_circle_reference (img : GrScImage T) (center_x center_y radius : Nat)
    (value : Cell T) (hr : radius ≤ 94906265)
    (hcx : center_x < 9223372036854775808) (hcy : center_y < 9223372036854775808)
    (hrows : img._rows ≤ 9223372036854775808) (hcols : img._cols ≤ 9223372036854775808) :
    DrawCircleReference img center_x center_y radius value := by
  obtain ⟨h1, h2, h3⟩ := draw_circle_cells img center_x center_y radius value
  refine ⟨h1, h2, fun x y hx hy => ?_⟩
  have hiff := stamps_iff center_x center_y radius x y hr hcx hcy (by omega) (by omega)
  rw [h3]
  by_cases hs : stamps center_x center_y radius x y
  · rw [if_pos ⟨hx, hy, hs⟩, if_pos (hiff.mp hs)]
  · rw [if_neg (fun h => hs h.2.2), if_neg (fun h => hs (hiff.mpr h))]

/-- C1 witness: the disk of radius 1 around the corner `(0, 2)` of a 3 x 3 `char` grid of
zeros, which extends past two edges: the reference definition holds, the cells `(0, 1)`,
`(0, 2)` and `(1, 2)` are stamped with 127 and the cell `(1, 1)` keeps its 0. -/
theorem draw_circle_reference_witness :
    DrawCircleReference (constant 3 3 (zero PixelType.char)) 0 2 1
      (max_type PixelType.char) ∧
    (((constant 3 3 (zero PixelType.char)).draw_circle 0 2 1
      (max_type PixelType.char))._data 0 1).val = 127 ∧
    (((constant 3 3 (zero PixelType.char)).draw_circle 0 2 1
      (max_type PixelType.char))._data 0 2).val = 127 ∧
    (((constant 3 3 (zero PixelType.char)).draw_circle 0 2 1
      (max_type PixelType.char))._data 1 2).val = 127 ∧
    (((constant 3 3 (zero PixelType.char)).draw_circle 0 2 1
      (max_type PixelType.char))._data 1 1).val = 0 := by
  have h := draw_circle_reference (constant 3 3 (zero PixelType.char)) 0 2 1
    (max_type PixelType.char) (by decide) (by decide) (by decide) (by decide) (by decide)
  refine ⟨h, ?_, ?_, ?_, ?_⟩
  · rw [h.2.2 0 1 (by decide) (by decide)]; decide
  · rw [h.2.2 0 2 (by decide) (by decide)]; decide
  · rw [h.2.2 1 2 (by decide) (by decide)]; decide
  · rw [h.2.2 1 1 (by decide) (by decide)]; decide

/-- C1 as stated fails: with `radius = 2^64 - 1` the conversion to `long long` gives `-1` and
`radius_square = 1`, so the cell `(0, 0)` of a 1 x 1 grid, at squared distance 4 from the
centre `(2, 0)`, keeps its content although `4 ≤ (2^64 - 1)²`. -/
theorem draw_circle_reference_fails :
    ¬ DrawCircleReference (T := PixelType.char)
      { _rows := 1, _cols := 1, _data := fun _ _ => zero PixelType.char } 2 0
      18446744073709551615 (max_type PixelType.char) := by
  intro h
  have h00 := h.2.2 0 0 (by decide) (by decide)
  revert h00
  decide

theorem log2_eq (n k : Nat) (h1 : 2 ^ k ≤ n) (h2 : n < 2 ^ (k + 1)) : Nat.log2 n = k := by
  have hn : n ≠ 0 := by
    have : 0 < 2 ^ k := Nat.pow_pos (by decide)
    omega
  have ha : k ≤ Nat.log2 n := (Nat.le_log2 hn).mpr h1
  have hb : Nat.log2 n < k + 1 := (Nat.log2_lt hn).mpr h2
  omega

/-- A square that is not representable: `(2^27 - 1)² = 2^54 - 2^28 + 1` is rounded to
`2^54 - 2^28`. -/
theorem roundToDouble_square_example :
    roundToDouble (-134217727 * -134217727) = 18014398241046528 := by
  have hl : Nat.log2 18014398241046529 = 53 := log2_eq _ _ (by norm_num) (by norm_num)
  have hz : (-134217727 * -134217727 : Int) = ((18014398241046529 : Nat) : Int) := by norm_num
  rw [hz]
  unfold roundToDouble
  simp only [Int.natAbs_ofNat, hl]
  decide

theorem roundToDouble_pow54 : roundToDouble 18014398509481984 = 18014398509481984 := by
  have hl : Nat.log2 18014398509481984 = 54 := log2_eq _ _ (by norm_num) (by norm_num)
  have hz : (18014398509481984 : Int) = ((18014398509481984 : Nat) : Int) := by norm_num
  rw [hz]
  unfold roundToDouble
  simp only [Int.natAbs_ofNat, hl]
  decide

/-- Beyond `radius² < 2^53` the rounding of the `double` arithmetic shows: with radius
`2^27` and centre `(2^27 - 1, 2^14)` the cell `(0, 0)` is written although its squared
distance `2^54 + 1` exceeds `radius² = 2^54`. -/
theorem stamps_rounding_example :
    stamps 134217727 16384 134217728 0 0 ∧
    ¬ (((0 : Nat) : Int) - (134217727 : Nat)) ^ 2 + (((0 : Nat) : Int) - (16384 : Nat)) ^ 2
        ≤ ((134217728 : Nat) : Int) ^ 2 := by
  refine ⟨?_, by decide⟩
  have e1 : wrapLongLong (toLongLong 0 - toLongLong 134217727) = -134217727 := by decide
  have e2 : wrapLongLong (toLongLong 0 - toLongLong 16384) = -16384 := by decide
  have e3 : wrapLongLong (toLongLong 134217728 * toLongLong 134217728) = 18014398509481984 := by
    decide
  have r1 : roundToDouble (-134217727) = -134217727 := roundToDouble_small _ (by decide)
  have r2 : roundToDouble (-16384) = -16384 := roundToDouble_small _ (by decide)
  have r4 : roundToDouble (-16384 * -16384) = 268435456 :=
    (roundToDouble_small _ (by decide)).trans (by decide)
  have hsum : (18014398241046528 : Int) + 268435456 = 18014398509481984 := by decide
  unfold stamps
  rw [e1, e2, e3, r1, r2, roundToDouble_square_example, r4, hsum, roundToDouble_pow54]

/-! ## The constructor and the loops of the binary operators -/

/-- The zero-filling constructor: dimensions as given, every grid cell `0`. -/
theorem construct_zero_cells (rows cols : Nat) (fresh dice : Nat → Nat → Cell T) :
    (construct T rows cols false fresh dice)._rows = rows ∧
    (construct T rows cols false fresh dice)._cols = cols ∧
    ∀ r c, (construct T rows cols false fresh dice)._data r c =
      if r < rows ∧ c < cols then convert T 0 else fresh r c := by
  have h := nested_forLoop_cells (fun _ _ _ => convert T 0)
    (fun r c (s : GrScImage T) => s.store r c (convert T 0))
    (fun x y s => ⟨rfl, rfl, fun r c => rfl⟩) rows cols
    { _rows := rows, _cols := cols, _data := fresh }
  exact h

/-- A double loop that assigns `f r c` to `res(r, c)` inside the extent of `res` returns
normally and has written exactly the visited block. -/
theorem assign_loop_cells (f : Nat → Nat → Cell T) (n m : Nat) (img : GrScImage T)
    (hn : n ≤ img._rows) (hm : m ≤ img._cols) :
    ∃ res, forLoopM n (fun r s =>
        forLoopM m (fun c s => s.operator_call_assign r c (f r c)) s) img = Except.ok res ∧
      res._rows = img._rows ∧ res._cols = img._cols ∧
      ∀ r c, res._data r c = if r < n ∧ c < m then f r c else img._data r c := by
  refine forLoopM_inv
    (fun x (s : GrScImage T) => s._rows = img._rows ∧ s._cols = img._cols ∧
      ∀ r c, s._data r c = if r < x ∧ c < m then f r c else img._data r c)
    n _ img ⟨rfl, rfl, fun r c => by simp⟩ ?_
  intro x s hx hs
  have h := forLoopM_inv
    (fun y (t : GrScImage T) => t._rows = img._rows ∧ t._cols = img._cols ∧
      ∀ r c, t._data r c =
        if (r < x ∧ c < m) ∨ (r = x ∧ c < y) then f r c else img._data r c)
    m (fun c s => s.operator_call_assign x c (f x c)) s
    ⟨hs.1, hs.2.1, fun r c => by rw [hs.2.2]; simp⟩ ?_
  · obtain ⟨t, ht, h1, h2, h3⟩ := h
    refine ⟨t, ht, h1, h2, fun r c => ?_⟩
    rw [h3]
    have hiff : ((r < x ∧ c < m) ∨ (r = x ∧ c < m)) ↔ (r < x + 1 ∧ c < m) := by omega
    simp only [hiff]
  · intro y t hy ht
    refine ⟨t.store x y (f x y), ?_, ht.1, ht.2.1, fun r c => ?_⟩
    · show (if x ≥ t._rows ∨ y ≥ t._cols then Except.error Error.out_of_range
        else Except.ok (t.store x y (f x y))) = _
      rw [if_neg]
      rw [ht.1, ht.2.1]
      omega
    · show (if r = x ∧ c = y then f x y else t._data r c) = _
      by_cases hxy : r = x ∧ c = y
      · obtain ⟨rfl, rfl⟩ := hxy
        simp
      · rw [if_neg hxy, ht.2.2]
        have hiff : ((r < x ∧ c < m) ∨ (r = x ∧ c < y)) ↔
            ((r < x ∧ c < m) ∨ (r = x ∧ c < y + 1)) := by omega
        simp only [hiff]

theorem max_dimension (a b : Nat) : (if a > b then a else b) = max a b := by
  split <;> omega

/-! ## Cell arithmetic of the operators -/

theorem max_type_val (T : PixelType) : (max_type T).val = T.hi := by
  cases T <;> rfl

theorem hi_nonneg (T : PixelType) : 0 ≤ T.hi := by
  cases T <;> decide

/-- Every value of an element type is far below `2^26` in magnitude. -/
theorem cell_bound (a : Cell T) : -32768 ≤ a.val ∧ a.val ≤ 32767 := by
  have h := a.property
  cases T <;> simp only [PixelType.lo, PixelType.hi] at h <;> omega

/-- On an exactly representable argument between the bounds `clamp_value` is
`min(max_value, max(0, v))`. -/
theorem clamp_value_val (hT : T ≠ PixelType.bool) (v : Int)
    (hv : v.natAbs < 9007199254740992) :
    (clamp_value T (roundToDouble v)).val = min T.hi (max 0 v) := by
  have hmax : roundToDouble (max_type T).val = T.hi := by
    rw [max_type_val]
    exact roundToDouble_small _ (by cases T <;> decide)
  unfold clamp_value
  rw [roundToDouble_small v hv, hmax]
  by_cases h1 : v > T.hi
  · rw [if_pos h1, max_type_val]
    have := hi_nonneg T
    omega
  · rw [if_neg h1]
    by_cases h2 : v < 0
    · rw [if_pos h2]
      have h0 : (convert T 0).val = 0 := by cases T <;> rfl
      rw [h0]
      have := hi_nonneg T
      omega
    · rw [if_neg h2]
      have hc : (convert T v).val = v := by
        cases T with
        | bool => exact absurd rfl hT
        | char =>
          simp only [PixelType.hi] at h1
          show (v + 128) % 256 - 128 = v
          omega
        | short =>
          simp only [PixelType.hi] at h1
          show (v + 32768) % 65536 - 32768 = v
          omega
      rw [hc]
      omega

theorem mulCell_numeric (hT : T ≠ PixelType.bool) (a b : Cell T) :
    (mulCell a b).val = min T.hi (max 0 (a.val * b.val)) := by
  have ha := cell_bound a
  have hb := cell_bound b
  have h1 : a.val * b.val ≤ 32768 * 32768 := by nlinarith
  have h2 : -(32768 * 32768) ≤ a.val * b.val := by nlinarith
  unfold mulCell
  rw [if_neg hT, roundToDouble_small a.val (by omega), roundToDouble_small b.val (by omega)]
  exact clamp_value_val hT _ (by omega)

theorem addCell_numeric (hT : T ≠ PixelType.bool) (a b : Cell T) :
    (addCell a b).val = min T.hi (max 0 (a.val + b.val)) := by
  have ha := cell_bound a
  have hb := cell_bound b
  unfold addCell
  rw [if_neg hT, roundToDouble_small a.val (by omega), roundToDouble_small b.val (by omega)]
  exact clamp_value_val hT _ (by omega)

theorem mulCell_bool (a b : Cell PixelType.bool) :
    (mulCell a b).val = if a.val ≠ 0 ∧ b.val ≠ 0 then 1 else 0 := by
  unfold mulCell
  rw [if_pos rfl]
  show (if (if a.val ≠ 0 ∧ b.val ≠ 0 then (1 : Int) else 0) = 0 then (0 : Int) else 1) = _
  by_cases h : a.val ≠ 0 ∧ b.val ≠ 0
  · rw [if_pos h]; rfl
  · rw [if_neg h]; rfl

theorem addCell_bool (a b : Cell PixelType.bool) :
    (addCell a b).val = if a.val ≠ 0 ∨ b.val ≠ 0 then 1 else 0 := by
  unfold addCell
  rw [if_pos rfl]
  show (if (if a.val ≠ 0 ∨ b.val ≠ 0 then (1 : Int) else 0) = 0 then (0 : Int) else 1) = _
  by_cases h : a.val ≠ 0 ∨ b.val ≠ 0
  · rw [if_pos h]; rfl
  · rw [if_neg h]; rfl

/-- The cell rule of `operator*` in closed form. -/
theorem mulCell_val (a b : Cell T) :
    (mulCell a b).val =
      if T = PixelType.bool then (if a.val ≠ 0 ∧ b.val ≠ 0 then 1 else 0)
      else min T.hi (max 0 (a.val * b.val)) := by
  by_cases hT : T = PixelType.bool
  · subst hT
    rw [if_pos rfl]
    exact mulCell_bool a b
  · rw [if_neg hT]
    exact mulCell_numeric hT a b

/-- The cell rule of `operator+` in closed form. -/
theorem addCell_val (a b : Cell T) :
    (addCell a b).val =
      if T = PixelType.bool then (if a.val ≠ 0 ∨ b.val ≠ 0 then 1 else 0)
      else min T.hi (max 0 (a.val + b.val)) := by
  by_cases hT : T = PixelType.bool
  · subst hT
    rw [if_pos rfl]
    exact addCell_bool a b
  · rw [if_neg hT]
    exact addCell_numeric hT a b

theorem mulCell_range (a b : Cell T) : 0 ≤ (mulCell a b).val ∧ (mulCell a b).val ≤ T.hi := by
  have hhi := hi_nonneg T
  rw [mulCell_val]
  by_cases hT : T = PixelType.bool
  · subst hT
    rw [if_pos rfl]
    simp only [PixelType.hi]
    split <;> omega
  · rw [if_neg hT]
    omega

theorem addCell_range (a b : Cell T) : 0 ≤ (addCell a b).val ∧ (addCell a b).val ≤ T.hi := by
  have hhi := hi_nonneg T
  rw [addCell_val]
  by_cases hT : T = PixelType.bool
  · subst hT
    rw [if_pos rfl]
    simp only [PixelType.hi]
    split <;> omega
  · rw [if_neg hT]
    omega

/-! ## The binary operators -/

theorem operator_call_inside (img : GrScImage T) (r c : Nat)
    (h : r < img._rows ∧ c < img._cols) :
    img.operator_call r c = Except.ok (img._data r c) := by
  unfold operator_call
  rw [if_neg (by omega)]

theorem operator_mul_loop (A B : GrScImage T) (fresh dice : Nat → Nat → Cell T) :
    A.operator_mul B fresh dice =
      forLoopM (max A._rows B._rows) (fun r s =>
        forLoopM (max A._cols B._cols) (fun c s =>
          s.operator_call_assign r c (mulCell (A.padded r c) (B.padded r c))) s)
        (construct T (max A._rows B._rows) (max A._cols B._cols) false fresh dice) := by
  unfold operator_mul
  simp only [max_dimension]
  unfold get_rows get_cols
  congr 1
  funext r s
  congr 1
  funext c t
  unfold mulCell padded
  by_cases hB : r < B._rows ∧ c < B._cols
  · rw [if_pos hB, if_pos hB, operator_call_inside B r c hB]
    by_cases hT : T = PixelType.bool
    · simp only [if_pos hT]; rfl
    · simp only [if_neg hT]; rfl
  · rw [if_neg hB, if_neg hB]
    by_cases hT : T = PixelType.bool
    · simp only [if_pos hT]; rfl
    · simp only [if_neg hT]; rfl

theorem operator_add_loop (A B : GrScImage T) (fresh dice : Nat → Nat → Cell T) :
    A.operator_add B fresh dice =
      forLoopM (max A._rows B._rows) (fun r s =>
        forLoopM (max A._cols B._cols) (fun c s =>
          s.operator_call_assign r c (addCell (A.padded r c) (B.padded r c))) s)
        (construct T (max A._rows B._rows) (max A._cols B._cols) false fresh dice) := by
  unfold operator_add
  simp only [max_dimension]
  unfold get_rows get_cols
  congr 1
  funext r s
  congr 1
  funext c t
  unfold addCell padded
  by_cases hB : r < B._rows ∧ c < B._cols
  · rw [if_pos hB, if_pos hB, operator_call_inside B r c hB]
    by_cases hT : T = PixelType.bool
    · simp only [if_pos hT]; rfl
    · simp only [if_neg hT]; rfl
  · rw [if_neg hB, if_neg hB]
    by_cases hT : T = PixelType.bool
    · simp only [if_pos hT]; rfl
    · simp only [if_neg hT]; rfl

theorem operator_mul_scalar_loop (A : GrScImage T) (num : Cell T)
    (fresh dice : Nat → Nat → Cell T) :
    A.operator_mul_scalar num fresh dice =
      forLoopM A._rows (fun r s =>
        forLoopM A._cols (fun c s =>
          s.operator_call_assign r c (mulCell (A._data r c) num)) s)
        (construct T A._rows A._cols false fresh dice) := by
  unfold operator_mul_scalar
  dsimp only
  congr 1
  funext r s
  congr 1
  funext c t
  unfold mulCell
  by_cases hT : T = PixelType.bool
  · simp only [if_pos hT]
  · simp only [if_neg hT]

theorem operator_add_scalar_loop (A : GrScImage T) (num : Cell T)
    (fresh dice : Nat → Nat → Cell T) :
    A.operator_add_scalar num fresh dice =
      forLoopM A._rows (fun r s =>
        forLoopM A._cols (fun c s =>
          s.operator_call_assign r c (addCell (A._data r c) num)) s)
        (construct T A._rows A._cols false fresh dice) := by
  unfold operator_add_scalar
  dsimp only
  congr 1
  funext r s
  congr 1
  funext c t
  unfold addCell
  by_cases hT : T = PixelType.bool
  · simp only [if_pos hT]
  · simp only [if_neg hT]

/-- A double assignment loop over a freshly constructed `n × m` result. -/
theorem assign_loop_fresh (f : Nat → Nat → Cell T) (n m : Nat)
    (fresh dice : Nat → Nat → Cell T) :
    ∃ res, forLoopM n (fun r s =>
        forLoopM m (fun c s => s.operator_call_assign r c (f r c)) s)
          (construct T n m false fresh dice) = Except.ok res ∧
      res._rows = n ∧ res._cols = m ∧
      ∀ r c, r < n → c < m → res._data r c = f r c := by
  obtain ⟨h1, h2, _⟩ := construct_zero_cells (T := T) n m fresh dice
  obtain ⟨res, hres, hr, hc, hd⟩ :=
    assign_loop_cells f n m (construct T n m false fresh dice) (by omega) (by omega)
  refine ⟨res, hres, hr.trans h1, hc.trans h2, fun r c hrn hcm => ?_⟩
  rw [hd, if_pos ⟨hrn, hcm⟩]

/-- The product `operator*` returns normally; its result has the componentwise-max dimensions and holds
in every cell the product rule applied to the padded operands. -/
theorem operator_mul_cells (A B : GrScImage T) (fresh dice : Nat → Nat → Cell T) :
    ∃ res, A.operator_mul B fresh dice = Except.ok res ∧
      res._rows = max A._rows B._rows ∧ res._cols = max A._cols B._cols ∧
      ∀ r c, r < max A._rows B._rows → c < max A._cols B._cols →
        res._data r c = mulCell (A.padded r c) (B.padded r c) := by
  rw [operator_mul_loop]
  exact assign_loop_fresh _ _ _ fresh dice

theorem operator_add_cells (A B : GrScImage T) (fresh dice : Nat → Nat → Cell T) :
    ∃ res, A.operator_add B fresh dice = Except.ok res ∧
      res._rows = max A._rows B._rows ∧ res._cols = max A._cols B._cols ∧
      ∀ r c, r < max A._rows B._rows → c < max A._cols B._cols →
        res._data r c = addCell (A.padded r c) (B.padded r c) := by
  rw [operator_add_loop]
  exact assign_loop_fresh _ _ _ fresh dice

theorem operator_mul_scalar_cells (A : GrScImage T) (num : Cell T)
    (fresh dice : Nat → Nat → Cell T) :
    ∃ res, A.operator_mul_scalar num fresh dice = Except.ok res ∧
      res._rows = A._rows ∧ res._cols = A._cols ∧
      ∀ r c, r < A._rows → c < A._cols → res._data r c = mulCell (A._data r c) num := by
  rw [operator_mul_scalar_loop]
  exact assign_loop_fresh _ _ _ fresh dice

theorem operator_add_scalar_cells (A : GrScImage T) (num : Cell T)
    (fresh dice : Nat → Nat → Cell T) :
    ∃ res, A.operator_add_scalar num fresh dice = Except.ok res ∧
      res._rows = A._rows ∧ res._cols = A._cols ∧
      ∀ r c, r < A._rows → c < A._cols → res._data r c = addCell (A._data r c) num := by
  rw [operator_add_scalar_loop]
  exact assign_loop_fresh _ _ _ fresh dice

/-- C2: for every pair of matrices `A`, `B` (any dimensions) `A * B` returns normally, has
`max(A.rows, B.rows)` rows and `max(A.cols, B.cols)` columns, and its cell `(r, c)` is
`a AND b` for `bool` and `min(max_value, max(0, a * b))` for `char`/`short`, where `a`
(resp. `b`) is the cell of `A` (resp. `B`) at `(r, c)` inside that operand and zero outside. -/
theorem operator_mul_reference (A B : GrScImage T) (fresh dice : Nat → Nat → Cell T) :
    ∃ res, A.operator_mul B fresh dice = Except.ok res ∧
      res._rows = max A._rows B._rows ∧ res._cols = max A._cols B._cols ∧
      ∀ r c, r < res._rows → c < res._cols →
        (res._data r c).val =
          if T = PixelType.bool then
            (if (A.padded r c).val ≠ 0 ∧ (B.padded r c).val ≠ 0 then 1 else 0)
          else min (max_type T).val (max 0 ((A.padded r c).val * (B.padded r c).val)) := by
  obtain ⟨res, hres, hr, hc, hd⟩ := operator_mul_cells A B fresh dice
  refine ⟨res, hres, hr, hc, fun r c hrr hcc => ?_⟩
  rw [hd r c (hr ▸ hrr) (hc ▸ hcc), mulCell_val, max_type_val]

/-- C3: for every pair of matrices `A`, `B` (any dimensions) `A + B` returns normally, has
`max(A.rows, B.rows)` rows and `max(A.cols, B.cols)` columns, and its cell `(r, c)` is
`a OR b` for `bool` and `min(max_value, max(0, a + b))` for `char`/`short`, where `a`
(resp. `b`) is the cell of `A` (resp. `B`) at `(r, c)` inside that operand and zero outside. -/
theorem operator_add_reference (A B : GrScImage T) (fresh dice : Nat → Nat → Cell T) :
    ∃ res, A.operator_add B fresh dice = Except.ok res ∧
      res._rows = max A._rows B._rows ∧ res._cols = max A._cols B._cols ∧
      ∀ r c, r < res._rows → c < res._cols →
        (res._data r c).val =
          if T = PixelType.bool then
            (if (A.padded r c).val ≠ 0 ∨ (B.padded r c).val ≠ 0 then 1 else 0)
          else min (max_type T).val (max 0 ((A.padded r c).val + (B.padded r c).val)) := by
  obtain ⟨res, hres, hr, hc, hd⟩ := operator_add_cells A B fresh dice
  refine ⟨res, hres, hr, hc, fun r c hrr hcc => ?_⟩
  rw [hd r c (hr ▸ hrr) (hc ▸ hcc), addCell_val, max_type_val]

/-- C4: for every matrix `M` and scalar `s` of the element type, `M * s` and `M + s` return
normally with exactly the dimensions of `M`, and cell `(r, c)` of the result is `v AND s`
resp. `v OR s` for `bool`, and `min(max_value, max(0, v * s))` resp.
`min(max_value, max(0, v + s))` for `char`/`short`, where `v` is the cell of `M` at `(r, c)`. -/
theorem scalar_operators_reference (M : GrScImage T) (s : Cell T)
    (fresh dice : Nat → Nat → Cell T) :
    (∃ res, M.operator_mul_scalar s fresh dice = Except.ok res ∧
      res._rows = M._rows ∧ res._cols = M._cols ∧
      ∀ r c, r < M._rows → c < M._cols →
        (res._data r c).val =
          if T = PixelType.bool then (if (M._data r c).val ≠ 0 ∧ s.val ≠ 0 then 1 else 0)
          else min (max_type T).val (max 0 ((M._data r c).val * s.val))) ∧
    (∃ res, M.operator_add_scalar s fresh dice = Except.ok res ∧
      res._rows = M._rows ∧ res._cols = M._cols ∧
      ∀ r c, r < M._rows → c < M._cols →
        (res._data r c).val =
          if T = PixelType.bool then (if (M._data r c).val ≠ 0 ∨ s.val ≠ 0 then 1 else 0)
          else min (max_type T).val (max 0 ((M._data r c).val + s.val))) := by
  constructor
  · obtain ⟨res, hres, hr, hc, hd⟩ := operator_mul_scalar_cells M s fresh dice
    refine ⟨res, hres, hr, hc, fun r c hrr hcc => ?_⟩
    rw [hd r c hrr hcc, mulCell_val, max_type_val]
  · obtain ⟨res, hres, hr, hc, hd⟩ := operator_add_scalar_cells M s fresh dice
    refine ⟨res, hres, hr, hc, fun r c hrr hcc => ?_⟩
    rw [hd r c hrr hcc, addCell_val, max_type_val]

/-! ## The operators of `GrScImage<float>` -/

theorem float_lt_finite (a b : ℚ) :
    FloatValue.lt (FloatValue.finite a) (FloatValue.finite b) = decide (a < b) := rfl

/-- The conversion to `float` keeps a value of `[0, 1]` finite and inside `[0, 1]`. -/
theorem float_narrow_unit (q : ℚ) (h0 : 0 ≤ q) (h1 : q ≤ 1) :
    ∃ r, FloatValue.narrow (FloatValue.finite q) = FloatValue.finite r ∧ 0 ≤ r ∧ r ≤ 1 := by
  have hr : ∀ r : ℚ, 0 ≤ r → r ≤ 1 →
      (if (2 : ℚ) ^ (128 : Int) ≤ r then FloatValue.posInf
        else if r ≤ -(2 : ℚ) ^ (128 : Int) then FloatValue.negInf
        else FloatValue.finite r) = FloatValue.finite r := by
    intro r hr0 hr1
    have hbig : (1 : ℚ) < (2 : ℚ) ^ (128 : Int) := by norm_num
    rw [if_neg (by linarith), if_neg (by linarith)]
  unfold FloatValue.narrow
  simp only []
  by_cases hsmall : |q| < (2 : ℚ) ^ (-126 : Int)
  · rw [if_pos hsmall]
    have hu : (0 : ℚ) < (2 : ℚ) ^ (-149 : Int) := zpow_pos (by norm_num) _
    have hm0 : (0 : ℚ) ≤ q / (2 : ℚ) ^ (-149 : Int) := div_nonneg h0 (le_of_lt hu)
    obtain ⟨hk1, hk2⟩ := nearestEven_bounds (q / (2 : ℚ) ^ (-149 : Int))
    have hfl0 : 0 ≤ ⌊q / (2 : ℚ) ^ (-149 : Int)⌋ := Int.floor_nonneg.mpr hm0
    have hfl1 : (⌊q / (2 : ℚ) ^ (-149 : Int)⌋ : ℚ) ≤ q / (2 : ℚ) ^ (-149 : Int) :=
      Int.floor_le _
    have hk0 : (0 : ℚ) ≤ (nearestEven (q / (2 : ℚ) ^ (-149 : Int)) : ℚ) := by
      exact_mod_cast le_trans hfl0 hk1
    have hkm : (nearestEven (q / (2 : ℚ) ^ (-149 : Int)) : ℚ) ≤
        q / (2 : ℚ) ^ (-149 : Int) + 1 := by
      have : (nearestEven (q / (2 : ℚ) ^ (-149 : Int)) : ℚ) ≤
          (⌊q / (2 : ℚ) ^ (-149 : Int)⌋ : ℚ) + 1 := by exact_mod_cast hk2
      linarith
    have hq : q < (2 : ℚ) ^ (-126 : Int) := lt_of_le_of_lt (le_abs_self q) hsmall
    have hle : (nearestEven (q / (2 : ℚ) ^ (-149 : Int)) : ℚ) * (2 : ℚ) ^ (-149 : Int) ≤ 1 := by
      calc (nearestEven (q / (2 : ℚ) ^ (-149 : Int)) : ℚ) * (2 : ℚ) ^ (-149 : Int)
          ≤ (q / (2 : ℚ) ^ (-149 : Int) + 1) * (2 : ℚ) ^ (-149 : Int) :=
            mul_le_mul_of_nonneg_right hkm (le_of_lt hu)
        _ = q + (2 : ℚ) ^ (-149 : Int) := by field_simp
        _ ≤ (2 : ℚ) ^ (-126 : Int) + (2 : ℚ) ^ (-149 : Int) := by linarith
        _ ≤ 1 := by norm_num
    exact ⟨_, hr _ (mul_nonneg hk0 (le_of_lt hu)) hle, mul_nonneg hk0 (le_of_lt hu), hle⟩
  · rw [if_neg hsmall]
    obtain ⟨hu0, hu1, _⟩ := roundRat_unit 24 (by decide) q h0 h1
    exact ⟨_, hr _ hu0 hu1, hu0, hu1⟩

/-- On a finite argument `clamp_value` returns a value of `[0, 1]`. -/
theorem float_clamp_value_range (q : ℚ) :
    (FloatImage.clamp_value (FloatValue.finite q)).InUnitRange := by
  unfold FloatImage.clamp_value
  rw [float_lt_finite, float_lt_finite]
  by_cases h1 : 1 < q
  · rw [if_pos (decide_eq_true h1)]
    exact ⟨zero_le_one, le_refl _⟩
  · rw [if_neg (by simpa using h1)]
    by_cases h0 : q < 0
    · rw [if_pos (decide_eq_true h0)]
      exact ⟨le_refl _, zero_le_one⟩
    · rw [if_neg (by simpa using h0)]
      obtain ⟨r, hr, hr0, hr1⟩ := float_narrow_unit q (not_lt.mp h0) (not_lt.mp h1)
      rw [hr]
      exact ⟨hr0, hr1⟩

/-- The argument zero passes `clamp_value` unchanged. -/
theorem float_clamp_value_zero :
    FloatImage.clamp_value (FloatValue.finite 0) = FloatValue.finite 0 := by
  unfold FloatImage.clamp_value
  rw [float_lt_finite, float_lt_finite, if_neg (by norm_num), if_neg (by norm_num)]
  unfold FloatValue.narrow
  simp only []
  have hr : (if |(0 : ℚ)| < (2 : ℚ) ^ (-126 : Int) then
      (nearestEven ((0 : ℚ) / (2 : ℚ) ^ (-149 : Int)) : ℚ) * (2 : ℚ) ^ (-149 : Int)
      else roundRat 24 0) = 0 := by
    rw [if_pos (by norm_num), zero_div, nearestEven_of_near 0 0 (by norm_num),
      Int.cast_zero, zero_mul]
  rw [hr, if_neg (by norm_num), if_neg (by norm_num)]

theorem float_isFinite_iff (v : FloatValue) : v.IsFinite ↔ ∃ q, v = FloatValue.finite q := by
  cases v with
  | finite q => exact ⟨fun _ => ⟨q, rfl⟩, fun _ => trivial⟩
  | nan => exact ⟨fun h => h.elim, fun ⟨_, h⟩ => FloatValue.noConfusion h⟩
  | posInf => exact ⟨fun h => h.elim, fun ⟨_, h⟩ => FloatValue.noConfusion h⟩
  | negInf => exact ⟨fun h => h.elim, fun ⟨_, h⟩ => FloatValue.noConfusion h⟩

/-- The operand value read from a matrix with finite cells is finite. -/
theorem float_padded_finite (A : FloatImage) (hA : A.Finite) (r c : Nat) :
    (A.padded r c).IsFinite := by
  unfold FloatImage.padded
  by_cases h : r < A._rows ∧ c < A._cols
  · rw [if_pos h]; exact hA r c h.1 h.2
  · rw [if_neg h]; trivial

/-- The clamped product and the clamped sum of finite values lie in `[0, 1]`. -/
theorem float_cells_range (a b : FloatValue) (ha : a.IsFinite) (hb : b.IsFinite) :
    (FloatImage.clamp_value (FloatValue.mul a b)).InUnitRange ∧
    (FloatImage.clamp_value (FloatValue.add a b)).InUnitRange := by
  obtain ⟨p, rfl⟩ := (float_isFinite_iff a).mp ha
  obtain ⟨q, rfl⟩ := (float_isFinite_iff b).mp hb
  exact ⟨float_clamp_value_range _, float_clamp_value_range _⟩

/-- The clamped product of two finite values one of which is zero is zero. -/
theorem float_mul_zero (a b : FloatValue) (ha : a.IsFinite) (hb : b.IsFinite)
    (h : a = FloatValue.finite 0 ∨ b = FloatValue.finite 0) :
    FloatImage.clamp_value (FloatValue.mul a b) = FloatValue.finite 0 := by
  obtain ⟨p, rfl⟩ := (float_isFinite_iff a).mp ha
  obtain ⟨q, rfl⟩ := (float_isFinite_iff b).mp hb
  have hpq : p * q = 0 := by
    rcases h with h | h
    · rw [FloatValue.finite.inj h, zero_mul]
    · rw [FloatValue.finite.inj h, mul_zero]
  show FloatImage.clamp_value (FloatValue.finite (roundRat 53 (p * q))) = _
  rw [hpq, roundRat_zero, float_clamp_value_zero]

theorem float_construct_dims (rows cols : Nat) (fresh : Nat → Nat → FloatValue) :
    (FloatImage.construct rows cols fresh)._rows = rows ∧
    (FloatImage.construct rows cols fresh)._cols = cols := by
  unfold FloatImage.construct
  exact forLoop_inv (fun _ (s : FloatImage) => s._rows = rows ∧ s._cols = cols) rows _ _
    ⟨rfl, rfl⟩
    (fun _ t _ ht => forLoop_inv (fun _ (s : FloatImage) => s._rows = rows ∧ s._cols = cols)
      cols _ t ht (fun _ _ _ hu => hu))

/-- A double loop that assigns `f r c` to `res(r, c)` inside the extent of `res` returns
normally and has written exactly the visited block. -/
theorem float_assign_loop_cells (f : Nat → Nat → FloatValue) (n m : Nat) (img : FloatImage)
    (hn : n ≤ img._rows) (hm : m ≤ img._cols) :
    ∃ res, forLoopM n (fun r s =>
        forLoopM m (fun c s => FloatImage.operator_call_assign s r c (f r c)) s) img =
          Except.ok res ∧
      res._rows = img._rows ∧ res._cols = img._cols ∧
      ∀ r c, res._data r c = if r < n ∧ c < m then f r c else img._data r c := by
  refine forLoopM_inv
    (fun x (s : FloatImage) => s._rows = img._rows ∧ s._cols = img._cols ∧
      ∀ r c, s._data r c = if r < x ∧ c < m then f r c else img._data r c)
    n _ img ⟨rfl, rfl, fun r c => by simp⟩ ?_
  intro x s hx hs
  have h := forLoopM_inv
    (fun y (t : FloatImage) => t._rows = img._rows ∧ t._cols = img._cols ∧
      ∀ r c, t._data r c =
        if (r < x ∧ c < m) ∨ (r = x ∧ c < y) then f r c else img._data r c)
    m (fun c s => FloatImage.operator_call_assign s x c (f x c)) s
    ⟨hs.1, hs.2.1, fun r c => by rw [hs.2.2]; simp⟩ ?_
  · obtain ⟨t, ht, h1, h2, h3⟩ := h
    refine ⟨t, ht, h1, h2, fun r c => ?_⟩
    rw [h3]
    have hiff : ((r < x ∧ c < m) ∨ (r = x ∧ c < m)) ↔ (r < x + 1 ∧ c < m) := by omega
    simp only [hiff]
  · intro y t hy ht
    refine ⟨t.store x y (f x y), ?_, ht.1, ht.2.1, fun r c => ?_⟩
    · show (if x ≥ t._rows ∨ y ≥ t._cols then Except.error Error.out_of_range
        else Except.ok (t.store x y (f x y))) = _
      rw [if_neg]
      rw [ht.1, ht.2.1]
      omega
    · show (if r = x ∧ c = y then f x y else t._data r c) = _
      by_cases hxy : r = x ∧ c = y
      · obtain ⟨rfl, rfl⟩ := hxy
        simp
      · rw [if_neg hxy, ht.2.2]
        have hiff : ((r < x ∧ c < m) ∨ (r = x ∧ c < y)) ↔
            ((r < x ∧ c < m) ∨ (r = x ∧ c < y + 1)) := by omega
        simp only [hiff]

/-- A double assignment loop over a freshly constructed `n × m` result. -/
theorem float_assign_loop_fresh (f : Nat → Nat → FloatValue) (n m : Nat)
    (fresh : Nat → Nat → FloatValue) :
    ∃ res, forLoopM n (fun r s =>
        forLoopM m (fun c s => FloatImage.operator_call_assign s r c (f r c)) s)
          (FloatImage.construct n m fresh) = Except.ok res ∧
      res._rows = n ∧ res._cols = m ∧
      ∀ r c, r < n → c < m → res._data r c = f r c := by
  obtain ⟨h1, h2⟩ := float_construct_dims n m fresh
  obtain ⟨res, hres, hr, hc, hd⟩ :=
    float_assign_loop_cells f n m (FloatImage.construct n m fresh) (by omega) (by omega)
  refine ⟨res, hres, hr.trans h1, hc.trans h2, fun r c hrn hcm => ?_⟩
  rw [hd, if_pos ⟨hrn, hcm⟩]

theorem float_operator_call_inside (img : FloatImage) (r c : Nat)
    (h : r < img._rows ∧ c < img._cols) :
    img.operator_call r c = Except.ok (img._data r c) := by
  unfold FloatImage.operator_call
  rw [if_neg (by omega)]

/-- The product `operator*` of `GrScImage<float>` returns normally; its result has the
componentwise-max dimensions and holds in every cell the clamped product of the padded
operands. -/
theorem float_operator_mul_cells (A B : FloatImage) (fresh : Nat → Nat → FloatValue) :
    ∃ res, A.operator_mul B fresh = Except.ok res ∧
      res._rows = max A._rows B._rows ∧ res._cols = max A._cols B._cols ∧
      ∀ r c, r < max A._rows B._rows → c < max A._cols B._cols →
        res._data r c =
          FloatImage.clamp_value (FloatValue.mul (A.padded r c) (B.padded r c)) := by
  have hloop : A.operator_mul B fresh =
      forLoopM (max A._rows B._rows) (fun r s =>
        forLoopM (max A._cols B._cols) (fun c s =>
          FloatImage.operator_call_assign s r c
            (FloatImage.clamp_value (FloatValue.mul (A.padded r c) (B.padded r c)))) s)
        (FloatImage.construct (max A._rows B._rows) (max A._cols B._cols) fresh) := by
    unfold FloatImage.operator_mul
    simp only [max_dimension]
    unfold FloatImage.get_rows FloatImage.get_cols
    congr 1
    funext r s
    congr 1
    funext c t
    unfold FloatImage.padded
    by_cases hB : r < B._rows ∧ c < B._cols
    · rw [if_pos hB, if_pos hB, float_operator_call_inside B r c hB]; rfl
    · rw [if_neg hB, if_neg hB]; rfl
  rw [hloop]
  exact float_assign_loop_fresh _ _ _ fresh

/-- The sum `operator+` of `GrScImage<float>` returns normally; its result has the
componentwise-max dimensions and holds in every cell the clamped sum of the padded
operands. -/
theorem float_operator_add_cells (A B : FloatImage) (fresh : Nat → Nat → FloatValue) :
    ∃ res, A.operator_add B fresh = Except.ok res ∧
      res._rows = max A._rows B._rows ∧ res._cols = max A._cols B._cols ∧
      ∀ r c, r < max A._rows B._rows → c < max A._cols B._cols →
        res._data r c =
          FloatImage.clamp_value (FloatValue.add (A.padded r c) (B.padded r c)) := by
  have hloop : A.operator_add B fresh =
      forLoopM (max A._rows B._rows) (fun r s =>
        forLoopM (max A._cols B._cols) (fun c s =>
          FloatImage.operator_call_assign s r c
            (FloatImage.clamp_value (FloatValue.add (A.padded r c) (B.padded r c)))) s)
        (FloatImage.construct (max A._rows B._rows) (max A._cols B._cols) fresh) := by
    unfold FloatImage.operator_add
    simp only [max_dimension]
    unfold FloatImage.get_rows FloatImage.get_cols
    congr 1
    funext r s
    congr 1
    funext c t
    unfold FloatImage.padded
    by_cases hB : r < B._rows ∧ c < B._cols
    · rw [if_pos hB, if_pos hB, float_operator_call_inside B r c hB]; rfl
    · rw [if_neg hB, if_neg hB]; rfl
  rw [hloop]
  exact float_assign_loop_fresh _ _ _ fresh

theorem float_operator_mul_scalar_cells (A : FloatImage) (num : FloatValue)
    (fresh : Nat → Nat → FloatValue) :
    ∃ res, A.operator_mul_scalar num fresh = Except.ok res ∧
      res._rows = A._rows ∧ res._cols = A._cols ∧
      ∀ r c, r < A._rows → c < A._cols →
        res._data r c = FloatImage.clamp_value (FloatValue.mul (A._data r c) num) :=
  float_assign_loop_fresh _ _ _ fresh

theorem float_operator_add_scalar_cells (A : FloatImage) (num : FloatValue)
    (fresh : Nat → Nat → FloatValue) :
    ∃ res, A.operator_add_scalar num fresh = Except.ok res ∧
      res._rows = A._rows ∧ res._cols = A._cols ∧
      ∀ r c, r < A._rows → c < A._cols →
        res._data r c = FloatImage.clamp_value (FloatValue.add (A._data r c) num) :=
  float_assign_loop_fresh _ _ _ fresh

/-! ## Saturation, range and padding -/

theorem zero_val (T : PixelType) : (zero T).val = 0 := by
  cases T <;> rfl

/-- C5: numeric add saturates and never wraps.  For `char`/`short` and operand values
`a, b` in `[0, max_value]` at a cell (the upper bound holds for every value of the type),
the cell of `A + B` is exactly `a + b` when `a + b ≤ max_value` and exactly `max_value`
otherwise; it lies in `[0, max_value]`. -/
theorem operator_add_saturates (hT : T ≠ PixelType.bool) (A B : GrScImage T)
    (fresh dice : Nat → Nat → Cell T) (r c : Nat)
    (hr : r < max A._rows B._rows) (hc : c < max A._cols B._cols)
    (ha : 0 ≤ (A.padded r c).val) (hb : 0 ≤ (B.padded r c).val) :
    ∃ res, A.operator_add B fresh dice = Except.ok res ∧
      (res._data r c).val =
        (if (A.padded r c).val + (B.padded r c).val ≤ (max_type T).val
         then (A.padded r c).val + (B.padded r c).val else (max_type T).val) ∧
      0 ≤ (res._data r c).val ∧ (res._data r c).val ≤ (max_type T).val := by
  obtain ⟨res, hres, _, _, hd⟩ := operator_add_cells A B fresh dice
  have hhi := hi_nonneg T
  refine ⟨res, hres, ?_, ?_⟩
  · rw [hd r c hr hc, addCell_numeric hT, max_type_val]
    split <;> omega
  · rw [hd r c hr hc, addCell_numeric hT, max_type_val]
    omega

/-- C5 witness: `127 + 127` gives `127` for `char` (not the wrapped `-2`). -/
theorem operator_add_saturates_witness :
    ∃ res, (constant 1 1 (max_type PixelType.char)).operator_add
        (constant 1 1 (max_type PixelType.char))
        (fun _ _ => zero PixelType.char) (fun _ _ => zero PixelType.char) = Except.ok res ∧
      (res._data 0 0).val = 127 := by
  obtain ⟨res, hres, hval, _⟩ :=
    operator_add_saturates (T := PixelType.char) (by decide)
      (constant 1 1 (max_type PixelType.char)) (constant 1 1 (max_type PixelType.char))
      (fun _ _ => zero PixelType.char) (fun _ _ => zero PixelType.char) 0 0
      (by decide) (by decide) (by decide) (by decide)
  exact ⟨res, hres, hval.trans (by decide)⟩

/-- C6, amended: every binary operator establishes the value-range invariant on its
result.  For `bool`, `char` and `short`, whatever the operands hold (any value of the element
type, negative ones included) and whatever the scalar, and for `float` whenever the cells of
the operands and the scalar are finite (neither NaN nor an infinity, but possibly outside
`[0, 1]`), `A * B`, `A + B`, `A * s` and `A + s` return normally and every cell of the
result lies in `[0, max_value]`. -/
theorem operators_establish_range (A B : GrScImage T) (s : Cell T)
    (fresh dice : Nat → Nat → Cell T)
    (FA FB : FloatImage) (fs : FloatValue) (ffresh : Nat → Nat → FloatValue)
    (hA : FA.Finite) (hB : FB.Finite) (hs : fs.IsFinite) :
    ((∃ res, A.operator_mul B fresh dice = Except.ok res ∧ res.InRange) ∧
     (∃ res, A.operator_add B fresh dice = Except.ok res ∧ res.InRange) ∧
     (∃ res, A.operator_mul_scalar s fresh dice = Except.ok res ∧ res.InRange) ∧
     (∃ res, A.operator_add_scalar s fresh dice = Except.ok res ∧ res.InRange)) ∧
    ((∃ res, FA.operator_mul FB ffresh = Except.ok res ∧ res.InRange) ∧
     (∃ res, FA.operator_add FB ffresh = Except.ok res ∧ res.InRange) ∧
     (∃ res, FA.operator_mul_scalar fs ffresh = Except.ok res ∧ res.InRange) ∧
     (∃ res, FA.operator_add_scalar fs ffresh = Except.ok res ∧ res.InRange)) := by
  refine ⟨⟨?_, ?_, ?_, ?_⟩, ⟨?_, ?_, ?_, ?_⟩⟩
  · obtain ⟨res, hres, hr, hc, hd⟩ := operator_mul_cells A B fresh dice
    refine ⟨res, hres, fun r c hrr hcc => ?_⟩
    rw [hd r c (hr ▸ hrr) (hc ▸ hcc), max_type_val]
    exact mulCell_range _ _
  · obtain ⟨res, hres, hr, hc, hd⟩ := operator_add_cells A B fresh dice
    refine ⟨res, hres, fun r c hrr hcc => ?_⟩
    rw [hd r c (hr ▸ hrr) (hc ▸ hcc), max_type_val]
    exact addCell_range _ _
  · obtain ⟨res, hres, hr, hc, hd⟩ := operator_mul_scalar_cells A s fresh dice
    refine ⟨res, hres, fun r c hrr hcc => ?_⟩
    rw [hd r c (hr ▸ hrr) (hc ▸ hcc), max_type_val]
    exact mulCell_range _ _
  · obtain ⟨res, hres, hr, hc, hd⟩ := operator_add_scalar_cells A s fresh dice
    refine ⟨res, hres, fun r c hrr hcc => ?_⟩
    rw [hd r c (hr ▸ hrr) (hc ▸ hcc), max_type_val]
    exact addCell_range _ _
  · obtain ⟨res, hres, hr, hc, hd⟩ := float_operator_mul_cells FA FB ffresh
    refine ⟨res, hres, fun r c hrr hcc => ?_⟩
    rw [hd r c (hr ▸ hrr) (hc ▸ hcc)]
    exact (float_cells_range _ _ (float_padded_finite FA hA r c)
      (float_padded_finite FB hB r c)).1
  · obtain ⟨res, hres, hr, hc, hd⟩ := float_operator_add_cells FA FB ffresh
    refine ⟨res, hres, fun r c hrr hcc => ?_⟩
    rw [hd r c (hr ▸ hrr) (hc ▸ hcc)]
    exact (float_cells_range _ _ (float_padded_finite FA hA r c)
      (float_padded_finite FB hB r c)).2
  · obtain ⟨res, hres, hr, hc, hd⟩ := float_operator_mul_scalar_cells FA fs ffresh
    refine ⟨res, hres, fun r c hrr hcc => ?_⟩
    rw [hd r c (hr ▸ hrr) (hc ▸ hcc)]
    exact (float_cells_range _ _ (hA r c (hr ▸ hrr) (hc ▸ hcc)) hs).1
  · obtain ⟨res, hres, hr, hc, hd⟩ := float_operator_add_scalar_cells FA fs ffresh
    refine ⟨res, hres, fun r c hrr hcc => ?_⟩
    rw [hd r c (hr ▸ hrr) (hc ▸ hcc)]
    exact (float_cells_range _ _ (hA r c (hr ▸ hrr) (hc ▸ hcc)) hs).2

/-- C6 witness: the `char` matrices holding -5 and 100 and the `float` matrices holding
2.5 and -3 (all outside or at the edge of the range) have products in range. -/
theorem operators_establish_range_witness :
    (∃ res, (constant 1 1 (convert PixelType.char (-5))).operator_mul
        (constant 1 1 (convert PixelType.char 100))
        (fun _ _ => zero PixelType.char) (fun _ _ => zero PixelType.char) = Except.ok res ∧
      res.InRange) ∧
    (∃ res, FloatImage.operator_mul
        { _rows := 1, _cols := 1, _data := fun _ _ => FloatValue.finite (5 / 2) }
        { _rows := 1, _cols := 1, _data := fun _ _ => FloatValue.finite (-3) }
        (fun _ _ => FloatValue.nan) = Except.ok res ∧ res.InRange) := by
  have h := operators_establish_range
    (constant 1 1 (convert PixelType.char (-5))) (constant 1 1 (convert PixelType.char 100))
    (convert PixelType.char (-1))
    (fun _ _ => zero PixelType.char) (fun _ _ => zero PixelType.char)
    { _rows := 1, _cols := 1, _data := fun _ _ => FloatValue.finite (5 / 2) }
    { _rows := 1, _cols := 1, _data := fun _ _ => FloatValue.finite (-3) }
    (FloatValue.finite (1 / 2)) (fun _ _ => FloatValue.nan)
    (fun _ _ _ _ => trivial) (fun _ _ _ _ => trivial) trivial
  exact ⟨h.1.1, h.2.1⟩

/-- C6 as stated fails for `GrScImage<float>`: the sum of the 1 x 1 matrix holding
`+infinity` and the 1 x 1 matrix holding `-infinity` (cells set by indexed assignment) is
computed without error and its cell is NaN, which no comparison of `clamp_value` catches
and which does not lie in `[0, 1]`. -/
theorem float_operator_add_leaves_range :
    ∃ R, FloatImage.operator_add
        { _rows := 1, _cols := 1, _data := fun _ _ => FloatValue.posInf }
        { _rows := 1, _cols := 1, _data := fun _ _ => FloatValue.negInf }
        (fun _ _ => FloatValue.finite 0) = Except.ok R ∧
      R._rows = 1 ∧ R._cols = 1 ∧ R._data 0 0 = FloatValue.nan ∧
      ¬ (R._data 0 0).InUnitRange :=
  ⟨_, rfl, rfl, rfl, rfl, fun h => h⟩

/-- Adding the padding zero to a value in `[0, max_value]` gives that value back. -/
theorem addCell_zero_right (a : Cell T) (ha : 0 ≤ a.val) : addCell a (zero T) = a := by
  apply Subtype.ext
  have hp := a.property
  rw [addCell_val, zero_val]
  by_cases hT : T = PixelType.bool
  · subst hT
    rw [if_pos rfl]
    simp only [PixelType.hi] at hp
    split <;> omega
  · rw [if_neg hT]
    omega

theorem addCell_zero_left (b : Cell T) (hb : 0 ≤ b.val) : addCell (zero T) b = b := by
  apply Subtype.ext
  have hp := b.property
  rw [addCell_val, zero_val]
  by_cases hT : T = PixelType.bool
  · subst hT
    rw [if_pos rfl]
    simp only [PixelType.hi] at hp
    split <;> omega
  · rw [if_neg hT]
    omega

theorem constant_inRange (rows cols : Nat) (v : Cell T)
    (h : 0 ≤ v.val ∧ v.val ≤ (max_type T).val) : (constant rows cols v).InRange :=
  fun _ _ _ _ => h

/-- C7: padding is identity-like for add.  For matrices `A`, `B` satisfying the range
invariant, a cell of `A + B` inside `A` but outside `B` equals the cell of `A`, a cell
inside `B` but outside `A` equals the cell of `B`, and a cell outside both is zero. -/
theorem operator_add_padding (A B : GrScImage T) (hA : A.InRange) (hB : B.InRange)
    (fresh dice : Nat → Nat → Cell T) :
    ∃ res, A.operator_add B fresh dice = Except.ok res ∧
      res._rows = max A._rows B._rows ∧ res._cols = max A._cols B._cols ∧
      ∀ r c, r < res._rows → c < res._cols →
        ((r < A._rows ∧ c < A._cols) → ¬ (r < B._rows ∧ c < B._cols) →
          res._data r c = A._data r c) ∧
        ((r < B._rows ∧ c < B._cols) → ¬ (r < A._rows ∧ c < A._cols) →
          res._data r c = B._data r c) ∧
        (¬ (r < A._rows ∧ c < A._cols) → ¬ (r < B._rows ∧ c < B._cols) →
          (res._data r c).val = 0) := by
  obtain ⟨res, hres, hr, hc, hd⟩ := operator_add_cells A B fresh dice
  refine ⟨res, hres, hr, hc, fun r c hrr hcc => ?_⟩
  rw [hd r c (hr ▸ hrr) (hc ▸ hcc)]
  unfold padded
  refine ⟨fun hin hout => ?_, fun hin hout => ?_, fun hout1 hout2 => ?_⟩
  · rw [if_pos hin, if_neg hout]
    exact addCell_zero_right _ (hA r c hin.1 hin.2).1
  · rw [if_pos hin, if_neg hout]
    exact addCell_zero_left _ (hB r c hin.1 hin.2).1
  · rw [if_neg hout1, if_neg hout2, addCell_zero_left _ (by rw [zero_val]), zero_val]

/-- C7 witness: a 2 x 1 `char` matrix of 5s plus a 1 x 2 matrix of 9s: cell `(1, 0)` is 5,
cell `(0, 1)` is 9 and cell `(1, 1)`, outside both, is 0. -/
theorem operator_add_padding_witness :
    ∃ res, (constant 2 1 (convert PixelType.char 5)).operator_add
        (constant 1 2 (convert PixelType.char 9))
        (fun _ _ => max_type PixelType.char) (fun _ _ => zero PixelType.char) = Except.ok res ∧
      res._rows = 2 ∧ res._cols = 2 ∧
      (res._data 1 0).val = 5 ∧ (res._data 0 1).val = 9 ∧ (res._data 1 1).val = 0 := by
  obtain ⟨res, hres, hr, hc, hd⟩ :=
    operator_add_padding (T := PixelType.char)
      (constant 2 1 (convert PixelType.char 5)) (constant 1 2 (convert PixelType.char 9))
      (constant_inRange 2 1 _ (by decide)) (constant_inRange 1 2 _ (by decide))
      (fun _ _ => max_type PixelType.char) (fun _ _ => zero PixelType.char)
  have hr2 : res._rows = 2 := hr
  have hc2 : res._cols = 2 := hc
  refine ⟨res, hres, hr2, hc2, ?_, ?_, ?_⟩
  · rw [(hd 1 0 (by omega) (by omega)).1 (by decide) (by decide)]; rfl
  · rw [(hd 0 1 (by omega) (by omega)).2.1 (by decide) (by decide)]; rfl
  · exact (hd 1 1 (by omega) (by omega)).2.2 (by decide) (by decide)

/-- Multiplying by a zero operand value gives zero. -/
theorem mulCell_zero (a b : Cell T) (h : a.val = 0 ∨ b.val = 0) : (mulCell a b).val = 0 := by
  have hhi := hi_nonneg T
  rw [mulCell_val]
  by_cases hT : T = PixelType.bool
  · rw [if_pos hT]
    split <;> omega
  · rw [if_neg hT]
    have hz : a.val * b.val = 0 := by
      rcases h with h | h <;> rw [h] <;> simp
    rw [hz]
    omega

/-- C8, amended: padding is annihilating for multiply.  For `bool`, `char` and `short`
matrices, and for `float` matrices whose cells are finite (neither NaN nor an infinity),
every cell of `A * B` outside the extent of at least one operand is zero, every cell where
`B` holds zero is zero, and if all cells of `B` are zero then `A * B` is the all-zero matrix
of the componentwise-max dimensions. -/
theorem operator_mul_padding (A B : GrScImage T) (fresh dice : Nat → Nat → Cell T)
    (FA FB : FloatImage) (ffresh : Nat → Nat → FloatValue)
    (hA : FA.Finite) (hB : FB.Finite) :
    (∃ res, A.operator_mul B fresh dice = Except.ok res ∧
      res._rows = max A._rows B._rows ∧ res._cols = max A._cols B._cols ∧
      (∀ r c, r < res._rows → c < res._cols →
        (¬ (r < A._rows ∧ c < A._cols) ∨ ¬ (r < B._rows ∧ c < B._cols)) →
          (res._data r c).val = 0) ∧
      (∀ r c, r < B._rows → c < B._cols → (B._data r c).val = 0 →
          (res._data r c).val = 0) ∧
      ((∀ r c, r < B._rows → c < B._cols → (B._data r c).val = 0) →
        ∀ r c, r < res._rows → c < res._cols → (res._data r c).val = 0)) ∧
    (∃ res, FA.operator_mul FB ffresh = Except.ok res ∧
      res._rows = max FA._rows FB._rows ∧ res._cols = max FA._cols FB._cols ∧
      (∀ r c, r < res._rows → c < res._cols →
        (¬ (r < FA._rows ∧ c < FA._cols) ∨ ¬ (r < FB._rows ∧ c < FB._cols)) →
          res._data r c = FloatValue.finite 0) ∧
      (∀ r c, r < FB._rows → c < FB._cols → FB._data r c = FloatValue.finite 0 →
          res._data r c = FloatValue.finite 0) ∧
      ((∀ r c, r < FB._rows → c < FB._cols → FB._data r c = FloatValue.finite 0) →
        ∀ r c, r < res._rows → c < res._cols → res._data r c = FloatValue.finite 0)) := by
  constructor
  · obtain ⟨res, hres, hr, hc, hd⟩ := operator_mul_cells A B fresh dice
    have hout : ∀ r c, r < res._rows → c < res._cols →
        (¬ (r < A._rows ∧ c < A._cols) ∨ ¬ (r < B._rows ∧ c < B._cols)) →
          (res._data r c).val = 0 := by
      intro r c hrr hcc h
      rw [hd r c (hr ▸ hrr) (hc ▸ hcc)]
      apply mulCell_zero
      unfold padded
      rcases h with h | h
      · left; rw [if_neg h, zero_val]
      · right; rw [if_neg h, zero_val]
    have hzero : ∀ r c, r < B._rows → c < B._cols → (B._data r c).val = 0 →
        (res._data r c).val = 0 := by
      intro r c hrB hcB hz
      rw [hd r c (by omega) (by omega)]
      apply mulCell_zero
      right
      unfold padded
      rw [if_pos ⟨hrB, hcB⟩]
      exact hz
    refine ⟨res, hres, hr, hc, hout, hzero, fun hall r c hrr hcc => ?_⟩
    by_cases hin : r < B._rows ∧ c < B._cols
    · exact hzero r c hin.1 hin.2 (hall r c hin.1 hin.2)
    · exact hout r c hrr hcc (Or.inr hin)
  · obtain ⟨res, hres, hr, hc, hd⟩ := float_operator_mul_cells FA FB ffresh
    have hout : ∀ r c, r < res._rows → c < res._cols →
        (¬ (r < FA._rows ∧ c < FA._cols) ∨ ¬ (r < FB._rows ∧ c < FB._cols)) →
          res._data r c = FloatValue.finite 0 := by
      intro r c hrr hcc h
      rw [hd r c (hr ▸ hrr) (hc ▸ hcc)]
      apply float_mul_zero _ _ (float_padded_finite FA hA r c) (float_padded_finite FB hB r c)
      unfold FloatImage.padded
      rcases h with h | h
      · left; rw [if_neg h]
      · right; rw [if_neg h]
    have hzero : ∀ r c, r < FB._rows → c < FB._cols → FB._data r c = FloatValue.finite 0 →
        res._data r c = FloatValue.finite 0 := by
      intro r c hrB hcB hz
      rw [hd r c (by omega) (by omega)]
      apply float_mul_zero _ _ (float_padded_finite FA hA r c) (float_padded_finite FB hB r c)
      right
      unfold FloatImage.padded
      rw [if_pos ⟨hrB, hcB⟩]
      exact hz
    refine ⟨res, hres, hr, hc, hout, hzero, fun hall r c hrr hcc => ?_⟩
    by_cases hin : r < FB._rows ∧ c < FB._cols
    · exact hzero r c hin.1 hin.2 (hall r c hin.1 hin.2)
    · exact hout r c hrr hcc (Or.inr hin)

/-- C8 witness: a 2 x 2 all-true `bool` matrix times the 1 x 1 matrix holding `false` is
a 2 x 2 all-false matrix, and the 2 x 2 `float` matrix of 0.5 times the 1 x 1 matrix
holding 0 is the 2 x 2 zero matrix. -/
theorem operator_mul_padding_witness :
    (∃ res, (constant 2 2 (max_type PixelType.bool)).operator_mul
        (constant 1 1 (zero PixelType.bool))
        (fun _ _ => max_type PixelType.bool) (fun _ _ => max_type PixelType.bool) =
          Except.ok res ∧
      res._rows = 2 ∧ res._cols = 2 ∧
      ∀ r c, r < 2 → c < 2 → (res._data r c).val = 0) ∧
    (∃ res, FloatImage.operator_mul
        { _rows := 2, _cols := 2, _data := fun _ _ => FloatValue.finite (1 / 2) }
        { _rows := 1, _cols := 1, _data := fun _ _ => FloatValue.finite 0 }
        (fun _ _ => FloatValue.nan) = Except.ok res ∧
      res._rows = 2 ∧ res._cols = 2 ∧
      ∀ r c, r < 2 → c < 2 → res._data r c = FloatValue.finite 0) := by
  obtain ⟨⟨res, hres, hr, hc, _, _, hall⟩, ⟨fres, hfres, hfr, hfc, _, _, hfall⟩⟩ :=
    operator_mul_padding (T := PixelType.bool)
      (constant 2 2 (max_type PixelType.bool)) (constant 1 1 (zero PixelType.bool))
      (fun _ _ => max_type PixelType.bool) (fun _ _ => max_type PixelType.bool)
      { _rows := 2, _cols := 2, _data := fun _ _ => FloatValue.finite (1 / 2) }
      { _rows := 1, _cols := 1, _data := fun _ _ => FloatValue.finite 0 }
      (fun _ _ => FloatValue.nan) (fun _ _ _ _ => trivial) (fun _ _ _ _ => trivial)
  have hr2 : res._rows = 2 := hr
  have hc2 : res._cols = 2 := hc
  have hfr2 : fres._rows = 2 := hfr
  have hfc2 : fres._cols = 2 := hfc
  refine ⟨⟨res, hres, hr2, hc2, fun r c hrr hcc => ?_⟩,
    ⟨fres, hfres, hfr2, hfc2, fun r c hrr hcc => ?_⟩⟩
  · exact hall (fun _ _ _ _ => rfl) r c (by omega) (by omega)
  · exact hfall (fun _ _ _ _ => rfl) r c (by omega) (by omega)

/-- C8 as stated fails for `GrScImage<float>`: with `A` the 1 x 2 matrix whose cell
`(0, 1)` holds `+infinity` and `B` the 1 x 1 matrix holding 0, the cell `(0, 1)` of `A * B`
lies outside the extent of `B`, reads `T{}` = 0 for `B`, and is `infinity * 0` = NaN,
not zero. -/
theorem float_operator_mul_padding_fails :
    ∃ R, FloatImage.operator_mul
        { _rows := 1, _cols := 2,
          _data := fun _ c => if c = 1 then FloatValue.posInf else FloatValue.finite 0 }
        { _rows := 1, _cols := 1, _data := fun _ _ => FloatValue.finite 0 }
        (fun _ _ => FloatValue.finite 0) = Except.ok R ∧
      R._rows = 1 ∧ R._cols = 2 ∧ R._data 0 1 = FloatValue.nan ∧
      R._data 0 1 ≠ FloatValue.finite 0 :=
  ⟨_, rfl, rfl, rfl, rfl, fun h => FloatValue.noConfusion h⟩

/-! ## Complement and equality -/

/-- What `operator!` does, cell by cell. -/
theorem operator_not_cells (M : GrScImage T) :
    M.operator_not._rows = M._rows ∧ M.operator_not._cols = M._cols ∧
    ∀ r c, M.operator_not._data r c =
      if r < intCounterLimit M._rows ∧ c < intCounterLimit M._cols
      then convert T ((max_type T).val - (M._data r c).val)
      else M._data r c :=
  nested_forLoop_cells (fun _ _ old => convert T ((max_type T).val - old.val))
    (fun r c (s : GrScImage T) =>
      s.store r c (convert T ((max_type T).val - (s._data r c).val)))
    (fun _ _ _ => ⟨rfl, rfl, fun _ _ => rfl⟩)
    (intCounterLimit M._rows) (intCounterLimit M._cols) M

theorem intCounterLimit_le (n : Nat) : intCounterLimit n ≤ n := by
  unfold intCounterLimit; omega

theorem intCounterLimit_eq (n : Nat) (h : n ≤ 2147483648) : intCounterLimit n = n := by
  unfold intCounterLimit; omega

/-- Complementing a value of the type twice, with the conversions back to the type, gives
the value back, also when the intermediate result wraps. -/
theorem convert_complement_twice (v : Cell T) :
    convert T ((max_type T).val - (convert T ((max_type T).val - v.val)).val) = v := by
  apply Subtype.ext
  have hp := v.property
  cases T with
  | bool =>
    simp only [PixelType.lo, PixelType.hi] at hp
    show (if (1 : Int) - (if (1 : Int) - v.val = 0 then 0 else 1) = 0 then (0 : Int) else 1)
      = v.val
    split <;> split at * <;> omega
  | char =>
    simp only [PixelType.lo, PixelType.hi] at hp
    show ((127 : Int) - ((127 - v.val + 128) % 256 - 128) + 128) % 256 - 128 = v.val
    omega
  | short =>
    simp only [PixelType.lo, PixelType.hi] at hp
    show ((32767 : Int) - ((32767 - v.val + 32768) % 65536 - 32768) + 32768) % 65536 - 32768
      = v.val
    omega

/-- The complement of a value in `[0, max_value]` is `max_value - v`, without wrapping. -/
theorem convert_complement_val (v : Cell T) (h0 : 0 ≤ v.val) :
    (convert T ((max_type T).val - v.val)).val = (max_type T).val - v.val := by
  have hp := v.property
  cases T with
  | bool =>
    simp only [PixelType.lo, PixelType.hi] at hp
    show (if (1 : Int) - v.val = 0 then (0 : Int) else 1) = 1 - v.val
    split <;> omega
  | char =>
    simp only [PixelType.lo, PixelType.hi] at hp
    show ((127 : Int) - v.val + 128) % 256 - 128 = 127 - v.val
    omega
  | short =>
    simp only [PixelType.lo, PixelType.hi] at hp
    show ((32767 : Int) - v.val + 32768) % 65536 - 32768 = 32767 - v.val
    omega

/-- A loop whose body returns the state unchanged returns the state unchanged. -/
theorem forLoopM_fixed {σ : Type} (n : Nat) (body : Nat → σ → Except Error σ) (s : σ)
    (h : ∀ i, i < n → body i s = Except.ok s) : forLoopM n body s = Except.ok s := by
  obtain ⟨t, ht, hts⟩ := forLoopM_inv (fun _ t => t = s) n body s rfl
    (fun i t hi hts => ⟨s, by rw [hts]; exact h i hi, rfl⟩)
  rw [ht, hts]

/-- The comparison `operator==` returns `true` on matrices of equal dimensions whose grid cells agree. -/
theorem operator_eq_of_cells (A B : GrScImage T) (hr : A._rows = B._rows)
    (hc : A._cols = B._cols)
    (hd : ∀ r c, r < A._rows → c < A._cols → B._data r c = A._data r c) :
    A.operator_eq B = Except.ok true := by
  unfold operator_eq
  rw [if_neg (by unfold get_rows get_cols; omega)]
  rw [forLoopM_fixed]
  · rfl
  · intro r hrr
    apply forLoopM_fixed
    intro c hcc
    have hrr' := lt_of_lt_of_le hrr (intCounterLimit_le A._rows)
    have hcc' := lt_of_lt_of_le hcc (intCounterLimit_le A._cols)
    show (do
      let v ← B.operator_call r c
      if v ≠ A._data r c then Except.ok (some false) else Except.ok none) = Except.ok none
    rw [operator_call_inside B r c (by omega)]
    show (if B._data r c ≠ A._data r c then Except.ok (some false) else Except.ok none)
      = Except.ok none
    rw [if_neg (by rw [hd r c hrr' hcc']; exact fun h => h rfl)]

/-- C9: double complement is the identity.  For every matrix `M` of type `bool`, `char` or
`short`, the matrix after applying `operator!` twice is reported equal to the original `M`
by `operator==`: same dimensions, every cell equal to its original value. -/
theorem double_complement_identity (M : GrScImage T) :
    M.operator_not.operator_not.operator_eq M = Except.ok true ∧
    M.operator_not.operator_not._rows = M._rows ∧
    M.operator_not.operator_not._cols = M._cols ∧
    ∀ r c, r < M._rows → c < M._cols →
      M.operator_not.operator_not._data r c = M._data r c := by
  obtain ⟨h1, h2, h3⟩ := operator_not_cells M
  obtain ⟨k1, k2, k3⟩ := operator_not_cells M.operator_not
  have hcells : ∀ r c, r < M._rows → c < M._cols →
      M.operator_not.operator_not._data r c = M._data r c := by
    intro r c hr hc
    rw [k3, h1, h2, h3]
    by_cases hin : r < intCounterLimit M._rows ∧ c < intCounterLimit M._cols
    · rw [if_pos hin, if_pos hin]
      exact convert_complement_twice _
    · rw [if_neg hin, if_neg hin]
  refine ⟨?_, k1.trans h1, k2.trans h2, hcells⟩
  apply operator_eq_of_cells _ _ (k1.trans h1) (k2.trans h2)
  intro r c hr hc
  exact (hcells r c (by omega) (by omega)).symm

/-- Within the reach of the `int` counters (at most `2^31` rows and columns) and for cells
in `[0, max_value]`, `operator!` leaves rows and cols unchanged, replaces every cell `v` by
`max_value - v` (for `bool`: true becomes false and false becomes true), and every
resulting cell again lies in `[0, max_value]`. -/
theorem operator_not_within_int_range (M : GrScImage T) (h : M.InRange)
    (hrows : M._rows ≤ 2147483648) (hcols : M._cols ≤ 2147483648) :
    M.operator_not._rows = M._rows ∧ M.operator_not._cols = M._cols ∧
    (∀ r c, r < M._rows → c < M._cols →
      (M.operator_not._data r c).val = (max_type T).val - (M._data r c).val) ∧
    (T = PixelType.bool → ∀ r c, r < M._rows → c < M._cols →
      (M.operator_not._data r c).val = if (M._data r c).val = 0 then 1 else 0) ∧
    M.operator_not.InRange := by
  obtain ⟨h1, h2, h3⟩ := operator_not_cells M
  rw [intCounterLimit_eq _ hrows, intCounterLimit_eq _ hcols] at h3
  have hval : ∀ r c, r < M._rows → c < M._cols →
      (M.operator_not._data r c).val = (max_type T).val - (M._data r c).val := by
    intro r c hr hc
    rw [h3, if_pos ⟨hr, hc⟩]
    exact convert_complement_val _ (h r c hr hc).1
  refine ⟨h1, h2, hval, ?_, ?_⟩
  · intro hT r c hr hc
    rw [hval r c hr hc, max_type_val]
    have hp := (M._data r c).property
    have h0 := (h r c hr hc).1
    subst hT
    simp only [PixelType.hi] at hp ⊢
    split <;> omega
  · intro r c hr hc
    rw [hval r c (by omega) (by omega)]
    have := h r c (by omega) (by omega)
    omega

/-- C10, failing input: on the 1 x (2^31 + 1) `char` matrix of 27s, which is in range,
`operator!` complements cell `(0, 0)` to 100 but leaves cell `(0, 2^31)` at 27: the `int`
column counter of line 121 never reaches `2^31`, whereas the claim has every cell replaced
by `max_value - v`. -/
theorem operator_not_misses_column :
    (constant 1 2147483649 (convert PixelType.char 27)).InRange ∧
    ((constant 1 2147483649 (convert PixelType.char 27)).operator_not._data 0 0).val = 100 ∧
    ((constant 1 2147483649 (convert PixelType.char 27)).operator_not._data
      0 2147483648).val = 27 := by
  have h3 := (operator_not_cells (constant 1 2147483649 (convert PixelType.char 27))).2.2
  refine ⟨constant_inRange _ _ _ (by decide), ?_, ?_⟩
  · rw [h3, if_pos (by decide)]; rfl
  · rw [h3, if_neg (by decide)]; rfl

/-! ## Equality decides, access fails exactly out of range -/

/-- A double loop with an early `return false`: the state is the value returned so far.
If an iteration that has not returned yet returns `false` exactly when `p` fails at the
visited cell, the loop ends without a return value iff `p` holds on the whole block. -/
theorem search_loop (n m : Nat)
    (body : Nat → Nat → Option Bool → Except Error (Option Bool))
    (p : Nat → Nat → Prop) [inst : ∀ r c, Decidable (p r c)]
    (hsome : ∀ r c b, body r c (some b) = Except.ok (some b))
    (hnone : ∀ r c, r < n → c < m →
      body r c none = Except.ok (if p r c then none else some false)) :
    ∃ ret, forLoopM n (fun r ret => forLoopM m (fun c ret => body r c ret) ret) none =
        Except.ok ret ∧
      ((ret = none ∧ ∀ r c, r < n → c < m → p r c) ∨
       (ret = some false ∧ ∃ r c, r < n ∧ c < m ∧ ¬ p r c)) := by
  have h := forLoopM_inv
    (fun x (ret : Option Bool) =>
      (ret = none ∧ ∀ r c, r < x → c < m → p r c) ∨
      (ret = some false ∧ ∃ r c, r < n ∧ c < m ∧ ¬ p r c))
    n (fun r ret => forLoopM m (fun c ret => body r c ret) ret) none
    (Or.inl ⟨rfl, fun r c hr _ => absurd hr (Nat.not_lt_zero r)⟩) ?_
  · exact h
  · intro x ret hx hret
    have hin := forLoopM_inv
      (fun y (t : Option Bool) =>
        (t = none ∧ (∀ r c, r < x → c < m → p r c) ∧ ∀ c, c < y → p x c) ∨
        (t = some false ∧ ∃ r c, r < n ∧ c < m ∧ ¬ p r c))
      m (fun c ret => body x c ret) ret ?_ ?_
    · obtain ⟨t, ht, hcase⟩ := hin
      refine ⟨t, ht, ?_⟩
      rcases hcase with ⟨h1, h2, h3⟩ | h
      · refine Or.inl ⟨h1, fun r c hr hc => ?_⟩
        by_cases hrx : r = x
        · rw [hrx]; exact h3 c hc
        · exact h2 r c (by omega) hc
      · exact Or.inr h
    · rcases hret with ⟨h1, h2⟩ | h
      · exact Or.inl ⟨h1, h2, fun c hc => absurd hc (Nat.not_lt_zero c)⟩
      · exact Or.inr h
    · intro y t hy ht
      rcases ht with ⟨h1, h2, h3⟩ | ⟨h1, h2⟩
      · rw [h1]
        by_cases hp : p x y
        · refine ⟨none, ?_, Or.inl ⟨rfl, h2, fun c hc => ?_⟩⟩
          · show body x y none = _
            rw [hnone x y hx hy, if_pos hp]
          · by_cases hcy : c = y
            · rw [hcy]; exact hp
            · exact h3 c (by omega)
        · refine ⟨some false, ?_, Or.inr ⟨rfl, x, y, hx, hy, hp⟩⟩
          show body x y none = _
          rw [hnone x y hx hy, if_neg hp]
      · rw [h1]
        exact ⟨some false, hsome x y false, Or.inr ⟨rfl, h2⟩⟩

theorem bind_ok {α β : Type} (x : Except Error α) (a : α) (f : α → Except Error β)
    (h : x = Except.ok a) : (x >>= f) = f a := by
  rw [h]; rfl

/-- The comparison `operator==` in closed form: it returns normally, and returns `true`
exactly when the dimensions agree and all grid cells agree. -/
theorem operator_eq_iff (A B : GrScImage T) :
    ∃ b, A.operator_eq B = Except.ok b ∧
      (b = true ↔ (A._rows = B._rows ∧ A._cols = B._cols ∧
        ∀ r c, r < intCounterLimit A._rows → c < intCounterLimit A._cols →
          A._data r c = B._data r c)) := by
  by_cases hdim : A._rows ≠ B._rows ∨ A._cols ≠ B._cols
  · refine ⟨false, ?_, ?_⟩
    · unfold operator_eq get_rows get_cols
      rw [if_pos hdim]
    · constructor
      · intro h; cases h
      · intro h; omega
  · have hr : A._rows = B._rows := by omega
    have hc : A._cols = B._cols := by omega
    obtain ⟨ret, hret, hcase⟩ := search_loop (intCounterLimit A._rows)
      (intCounterLimit A._cols)
      (fun r c (ret : Option Bool) =>
        match ret with
        | some b => Except.ok (some b)
        | none => do
          let v ← B.operator_call r c
          if v ≠ A._data r c then Except.ok (some false) else Except.ok none)
      (fun r c => B._data r c = A._data r c) (fun _ _ _ => rfl)
      (by
        intro r c hrr hcc
        have hrr' := lt_of_lt_of_le hrr (intCounterLimit_le A._rows)
        have hcc' := lt_of_lt_of_le hcc (intCounterLimit_le A._cols)
        show (do
          let v ← B.operator_call r c
          if v ≠ A._data r c then Except.ok (some false) else Except.ok none) = _
        rw [operator_call_inside B r c (by omega)]
        show (if B._data r c ≠ A._data r c then Except.ok (some false) else Except.ok none)
          = _
        by_cases h : B._data r c = A._data r c
        · rw [if_neg (fun h' => h' h), if_pos h]
        · rw [if_pos h, if_neg h])
    have hform : A.operator_eq B = Except.ok (ret.getD true) := by
      unfold operator_eq
      rw [if_neg (by unfold get_rows get_cols; exact hdim)]
      refine (bind_ok _ ret _ hret).trans ?_
      cases ret <;> rfl
    rcases hcase with ⟨h1, h2⟩ | ⟨h1, r, c, hrr, hcc, hne⟩
    · refine ⟨true, by rw [hform, h1]; rfl, ?_⟩
      constructor
      · intro _
        exact ⟨hr, hc, fun r c hrr hcc => (h2 r c hrr hcc).symm⟩
      · intro _; rfl
    · refine ⟨false, by rw [hform, h1]; rfl, ?_⟩
      constructor
      · intro h; cases h
      · intro h
        exact absurd (h.2.2 r c hrr hcc).symm hne

/-- Within the reach of the `int` counters (at most `2^31` rows and columns) `operator==`
decides structural equality: it returns normally, returns `true` if and only if the rows
agree, the cols agree and every corresponding cell is equal, and returns `false` whenever
the dimensions differ. -/
theorem operator_eq_within_int_range (A B : GrScImage T)
    (hrows : A._rows ≤ 2147483648) (hcols : A._cols ≤ 2147483648) :
    ∃ b, A.operator_eq B = Except.ok b ∧
      (b = true ↔ (A._rows = B._rows ∧ A._cols = B._cols ∧
        ∀ r c, r < A._rows → c < A._cols → A._data r c = B._data r c)) ∧
      ((A._rows ≠ B._rows ∨ A._cols ≠ B._cols) → b = false) := by
  obtain ⟨b, hb, hiff⟩ := operator_eq_iff A B
  rw [intCounterLimit_eq _ hrows, intCounterLimit_eq _ hcols] at hiff
  refine ⟨b, hb, hiff, fun hdim => ?_⟩
  cases b with
  | false => rfl
  | true =>
    have h := hiff.mp rfl
    omega

/-- C11, failing input: the 1 x (2^31 + 1) `char` matrix of zeros and its copy with 127
stored at `(0, 2^31)` have equal dimensions and differ in that cell, yet `operator==`
returns `true`: the `int` column counter of line 135 never reaches `2^31`, whereas the claim
has `true` only if every corresponding cell is equal. -/
theorem operator_eq_misses_column :
    (constant 1 2147483649 (zero PixelType.char)).operator_eq
      ((constant 1 2147483649 (zero PixelType.char)).store 0 2147483648
        (max_type PixelType.char)) = Except.ok true ∧
    (constant 1 2147483649 (zero PixelType.char))._data 0 2147483648 ≠
      ((constant 1 2147483649 (zero PixelType.char)).store 0 2147483648
        (max_type PixelType.char))._data 0 2147483648 := by
  constructor
  · obtain ⟨b, hb, hiff⟩ := operator_eq_iff (constant 1 2147483649 (zero PixelType.char))
      ((constant 1 2147483649 (zero PixelType.char)).store 0 2147483648
        (max_type PixelType.char))
    have hb' : b = true := by
      apply hiff.mpr
      refine ⟨rfl, rfl, fun r c _ hc => ?_⟩
      have hc' : c < 2147483648 := by
        have : intCounterLimit 2147483649 = 2147483648 := by decide
        rw [← this]; exact hc
      show zero PixelType.char =
        if r = 0 ∧ c = 2147483648 then max_type PixelType.char else zero PixelType.char
      rw [if_neg (by omega)]
    rw [hb, hb']
  · decide

/-- C12: bounds-checked access fails exactly on out-of-range indices.  Both forms of
`operator()(row, col)` raise the out-of-range error if and only if `row >= rows` or
`col >= cols` (a call that throws produces no new state: the matrix is as before);
otherwise the read form yields the cell stored at `(row, col)` and the write form stores
the assigned value there, leaving the dimensions and every other cell as they were. -/
theorem operator_call_bounds (M : GrScImage T) (row col : Nat) (v : Cell T) :
    (M.operator_call row col = Except.error Error.out_of_range ↔
      (row ≥ M._rows ∨ col ≥ M._cols)) ∧
    (row < M._rows ∧ col < M._cols →
      M.operator_call row col = Except.ok (M._data row col)) ∧
    (M.operator_call_assign row col v = Except.error Error.out_of_range ↔
      (row ≥ M._rows ∨ col ≥ M._cols)) ∧
    (row < M._rows ∧ col < M._cols →
      ∃ M', M.operator_call_assign row col v = Except.ok M' ∧
        M'._rows = M._rows ∧ M'._cols = M._cols ∧ M'._data row col = v ∧
        ∀ r c, ¬ (r = row ∧ c = col) → M'._data r c = M._data r c) := by
  refine ⟨?_, fun h => operator_call_inside M row col h, ?_, fun h => ?_⟩
  · unfold operator_call
    by_cases h : row ≥ M._rows ∨ col ≥ M._cols
    · rw [if_pos h]; exact ⟨fun _ => h, fun _ => rfl⟩
    · rw [if_neg h]; exact ⟨fun h' => (by cases h'), fun h' => absurd h' h⟩
  · unfold operator_call_assign
    by_cases h : row ≥ M._rows ∨ col ≥ M._cols
    · rw [if_pos h]; exact ⟨fun _ => h, fun _ => rfl⟩
    · rw [if_neg h]; exact ⟨fun h' => (by cases h'), fun h' => absurd h' h⟩
  · refine ⟨M.store row col v, ?_, rfl, rfl, ?_, fun r c hne => ?_⟩
    · unfold operator_call_assign
      rw [if_neg (by omega)]
    · show (if row = row ∧ col = col then v else M._data row col) = v
      rw [if_pos ⟨rfl, rfl⟩]
    · show (if r = row ∧ c = col then v else M._data r c) = M._data r c
      rw [if_neg hne]

/-! ## `fillability` -/

/-- A loop whose body adds `g i` to a non-negative accumulator, as long as the sum stays
below `B`, ends with the sum of the `g i`. -/
theorem forLoop_add_exact (B : Int) (body : Nat → Int → Int) (g : Nat → Int) (n : Nat)
    (s : Int) (hs : 0 ≤ s) (hg : ∀ i, i < n → 0 ≤ g i)
    (hb : s + ∑ i ∈ Finset.range n, g i < B)
    (hbody : ∀ i, i < n → ∀ acc, 0 ≤ acc → acc + g i < B → body i acc = acc + g i) :
    forLoop n body s = s + ∑ i ∈ Finset.range n, g i := by
  induction n with
  | zero => simp [forLoop]
  | succ k ih =>
    rw [Finset.sum_range_succ] at hb
    have hgk := hg k (by omega)
    have hsum0 : 0 ≤ ∑ i ∈ Finset.range k, g i :=
      Finset.sum_nonneg (fun i hi => hg i (by have := Finset.mem_range.mp hi; omega))
    rw [forLoop_succ, ih (fun i hi => hg i (by omega)) (by omega)
      (fun i hi => hbody i (by omega)), Finset.sum_range_succ,
      hbody k (by omega) _ (by omega) (by omega)]
    ring

/-- One step of the accumulation `sum_cells += v` is exact below `2^53`. -/
theorem accumulate_step (acc v : Int) (h0 : 0 ≤ acc) (hv : 0 ≤ v)
    (hb : acc + v < 9007199254740992) :
    roundToDouble (acc + roundToDouble v) = acc + v := by
  rw [roundToDouble_small v (by omega), roundToDouble_small (acc + v) (by omega)]

/-- The accumulator of `fillability` ends as the sum of all grid cells when the cells
are non-negative and their sum is below `2^53`. -/
theorem fillability_sum (M : GrScImage T)
    (h0 : ∀ r c, r < M._rows → c < M._cols → 0 ≤ (M._data r c).val)
    (hb : M.cellSum < 9007199254740992) :
    forLoop M._rows (fun i s =>
      forLoop M._cols (fun j s => roundToDouble (s + roundToDouble (M._data i j).val)) s) 0
      = M.cellSum := by
  have h := forLoop_add_exact 9007199254740992
    (fun i s =>
      forLoop M._cols (fun j s => roundToDouble (s + roundToDouble (M._data i j).val)) s)
    (fun i => ∑ j ∈ Finset.range M._cols, (M._data i j).val) M._rows 0 (le_refl 0)
    (fun i hi => Finset.sum_nonneg (fun j hj => h0 i j hi (Finset.mem_range.mp hj)))
    (by rw [zero_add]; exact hb)
    (fun i hi acc hacc hlt =>
      forLoop_add_exact 9007199254740992 _ (fun j => (M._data i j).val) M._cols acc hacc
        (fun j hj => h0 i j hi hj) hlt
        (fun j hj acc' hacc' hlt' => accumulate_step acc' _ hacc' (h0 i j hi hj) hlt'))
  rw [h, zero_add]
  rfl

theorem max_type_pos (T : PixelType) : 0 < (max_type T).val := by
  rw [max_type_val]; cases T <;> decide

/-- The divisor of `fillability` is positive for a grid with at least one cell. -/
theorem divisor_pos (M : GrScImage T) (hr : 0 < M._rows) (hc : 0 < M._cols) :
    (0 : ℚ) < ((M._rows * M._cols : Nat) : ℚ) * ((max_type T).val : ℚ) := by
  have h1 : (0 : ℚ) < ((M._rows * M._cols : Nat) : ℚ) := by
    exact_mod_cast Nat.mul_pos hr hc
  have h2 : (0 : ℚ) < ((max_type T).val : ℚ) := by
    exact_mod_cast max_type_pos T
  exact mul_pos h1 h2

/-- Under the range invariant the cell sum lies between 0 and `rows * cols * max_value`. -/
theorem cellSum_bounds (M : GrScImage T) (h : M.InRange) :
    0 ≤ M.cellSum ∧ M.cellSum ≤ ((M._rows * M._cols : Nat) : Int) * (max_type T).val := by
  unfold cellSum
  constructor
  · apply Finset.sum_nonneg
    intro r hr
    apply Finset.sum_nonneg
    intro c hc
    exact (h r c (Finset.mem_range.mp hr) (Finset.mem_range.mp hc)).1
  · have hle : ∑ r ∈ Finset.range M._rows, ∑ c ∈ Finset.range M._cols, (M._data r c).val ≤
        ∑ _r ∈ Finset.range M._rows, ∑ _c ∈ Finset.range M._cols, (max_type T).val := by
      apply Finset.sum_le_sum
      intro r hr
      apply Finset.sum_le_sum
      intro c hc
      exact (h r c (Finset.mem_range.mp hr) (Finset.mem_range.mp hc)).2
    refine hle.trans (le_of_eq ?_)
    simp only [Finset.sum_const, Finset.card_range, smul_eq_mul, nsmul_eq_mul]
    push_cast
    ring

/-- The exact density of a matrix in range lies in `[0, 1]`. -/
theorem density_unit (M : GrScImage T) (hr : 0 < M._rows) (hc : 0 < M._cols)
    (h : M.InRange) : 0 ≤ M.density ∧ M.density ≤ 1 := by
  have hpos := divisor_pos M hr hc
  obtain ⟨h0, h1⟩ := cellSum_bounds M h
  have h0q : (0 : ℚ) ≤ (M.cellSum : ℚ) := by exact_mod_cast h0
  have h1q : (M.cellSum : ℚ) ≤ ((M._rows * M._cols : Nat) : ℚ) * ((max_type T).val : ℚ) := by
    exact_mod_cast h1
  unfold density
  exact ⟨div_nonneg h0q (le_of_lt hpos), (div_le_one hpos).mpr h1q⟩

/-- The result of `fillability` in closed form: for a non-empty matrix in range whose
divisor `rows * cols * max_value` is below `2^53`, the sum and the divisor are exact and
the result is the exact density rounded to a `double`. -/
theorem fillability_eq (M : GrScImage T) (hr : 0 < M._rows) (hc : 0 < M._cols)
    (h : M.InRange)
    (hsize : ((M._rows * M._cols : Nat) : Int) * (max_type T).val < 9007199254740992) :
    M.fillability = some (roundRat 53 M.density) := by
  obtain ⟨_, hsum⟩ := cellSum_bounds M h
  have hdpos : 0 < ((M._rows * M._cols : Nat) : Int) * (max_type T).val :=
    Int.mul_pos (by exact_mod_cast Nat.mul_pos hr hc) (max_type_pos T)
  have hdiv : roundToDouble (((M._rows * M._cols : Nat) : Int) * (max_type T).val) =
      ((M._rows * M._cols : Nat) : Int) * (max_type T).val :=
    roundToDouble_small _ (by omega)
  unfold fillability density
  simp only []
  rw [fillability_sum M (fun r c hr' hc' => (h r c hr' hc').1) (by omega), hdiv,
    if_neg (ne_of_gt hdpos)]
  push_cast
  rfl

/-- The 2 x 2 `char` matrix of 27s has the exact density `108 / 508 = 27 / 127`. -/
theorem density_constant_27 :
    (constant 2 2 (convert PixelType.char 27)).density = 27 / 127 := by
  have hs : (constant 2 2 (convert PixelType.char 27)).cellSum = 108 := by decide
  have hm : (max_type PixelType.char).val = 127 := rfl
  have hn : (constant 2 2 (convert PixelType.char 27))._rows *
      (constant 2 2 (convert PixelType.char 27))._cols = 4 := rfl
  unfold density
  rw [hs, hm, hn]
  norm_num

/-- On the 2 x 2 `char` matrix of 27s `fillability` returns the `double` nearest to
`27 / 127`, which is `7659665507968718 / 2^55`. -/
theorem fillability_constant_27 :
    (constant 2 2 (convert PixelType.char 27)).fillability =
      some (7659665507968718 / 36028797018963968) := by
  rw [fillability_eq _ (by decide) (by decide) (constant_inRange 2 2 _ (by decide))
    (by decide), density_constant_27, roundRat_27_127]

/-- C13, amended: `fillability` is a normalised density up to the rounding of the `double`
quotient.  For every `bool`, `char` or `short` matrix with `rows > 0` and `cols > 0` whose
cells all lie in `[0, max_value]` and whose divisor `rows * cols * max_value` is below
`2^53`, the divisor is non-zero, `fillability()` is the `double` nearest to
`(sum of all cell values) / (rows * cols * max_value)`, it differs from that quotient by at
most `2^-54`, and it lies in the closed interval `[0, 1]`. -/
theorem fillability_density (M : GrScImage T) (hr : 0 < M._rows) (hc : 0 < M._cols)
    (h : M.InRange)
    (hsize : ((M._rows * M._cols : Nat) : Int) * (max_type T).val < 9007199254740992) :
    ((M._rows * M._cols : Nat) : ℚ) * ((max_type T).val : ℚ) ≠ 0 ∧
    M.fillability = some (roundRat 53
      ((M.cellSum : ℚ) / (((M._rows * M._cols : Nat) : ℚ) * ((max_type T).val : ℚ)))) ∧
    |roundRat 53
        ((M.cellSum : ℚ) / (((M._rows * M._cols : Nat) : ℚ) * ((max_type T).val : ℚ))) -
      (M.cellSum : ℚ) / (((M._rows * M._cols : Nat) : ℚ) * ((max_type T).val : ℚ))| ≤
      1 / 18014398509481984 ∧
    0 ≤ roundRat 53
      ((M.cellSum : ℚ) / (((M._rows * M._cols : Nat) : ℚ) * ((max_type T).val : ℚ))) ∧
    roundRat 53
      ((M.cellSum : ℚ) / (((M._rows * M._cols : Nat) : ℚ) * ((max_type T).val : ℚ))) ≤ 1 := by
  have hpos := divisor_pos M hr hc
  obtain ⟨hd0, hd1⟩ := density_unit M hr hc h
  obtain ⟨hu0, hu1, hu2⟩ := roundRat_unit 53 (by decide) M.density hd0 hd1
  have hpow : (2 : ℚ) ^ (-((53 : Nat) : Int) - 1) = 1 / 18014398509481984 := by norm_num
  rw [hpow] at hu2
  exact ⟨ne_of_gt hpos, fillability_eq M hr hc h hsize, hu2, hu0, hu1⟩

/-- C13 witness: on the 2 x 2 `char` matrix of 27s the quotient is `27 / 127` and
`fillability` returns the `double` nearest to it, `7659665507968718 / 2^55`. -/
theorem fillability_density_witness :
    (constant 2 2 (convert PixelType.char 27)).fillability =
      some (7659665507968718 / 36028797018963968) ∧
    |(7659665507968718 / 36028797018963968 : ℚ) - 27 / 127| ≤ 1 / 18014398509481984 := by
  have h := fillability_density (constant 2 2 (convert PixelType.char 27))
    (by decide) (by decide) (constant_inRange 2 2 _ (by decide)) (by decide)
  have hd : ((constant 2 2 (convert PixelType.char 27)).cellSum : ℚ) /
      ((((constant 2 2 (convert PixelType.char 27))._rows *
        (constant 2 2 (convert PixelType.char 27))._cols : Nat) : ℚ) *
        ((max_type PixelType.char).val : ℚ)) = 27 / 127 := density_constant_27
  rw [hd, roundRat_27_127] at h
  exact ⟨h.2.1, h.2.2.1⟩

/-- C13 as stated fails: the 2 x 2 `char` matrix of 27s is in range and its exact quotient
is `108 / 508 = 27 / 127`, but `fillability` returns a `double`, and no `double` equals
`27 / 127`. -/
theorem fillability_density_fails :
    (constant 2 2 (convert PixelType.char 27)).InRange ∧
    ((constant 2 2 (convert PixelType.char 27)).cellSum : ℚ) /
      ((((constant 2 2 (convert PixelType.char 27))._rows *
        (constant 2 2 (convert PixelType.char 27))._cols : Nat) : ℚ) *
        ((max_type PixelType.char).val : ℚ)) = 27 / 127 ∧
    (constant 2 2 (convert PixelType.char 27)).fillability ≠ some (27 / 127) := by
  refine ⟨constant_inRange 2 2 _ (by decide), density_constant_27, ?_⟩
  rw [fillability_constant_27]
  norm_num

/-- The cell sum of a grid whose cells are all zero is zero. -/
theorem cellSum_zero (M : GrScImage T)
    (h : ∀ r c, r < M._rows → c < M._cols → (M._data r c).val = 0) : M.cellSum = 0 := by
  unfold cellSum
  apply Finset.sum_eq_zero
  intro r hr
  apply Finset.sum_eq_zero
  intro c hc
  exact h r c (Finset.mem_range.mp hr) (Finset.mem_range.mp hc)

/-- On a non-empty grid of zeros `fillability` returns 0, whatever the size: the
accumulator stays 0 and the divisor, rounded or not, is not zero. -/
theorem fillability_zero (M : GrScImage T) (hr : 0 < M._rows) (hc : 0 < M._cols)
    (h : ∀ r c, r < M._rows → c < M._cols → (M._data r c).val = 0) :
    M.fillability = some 0 := by
  have hsum := cellSum_zero M h
  have hdpos : 0 < ((M._rows * M._cols : Nat) : Int) * (max_type T).val :=
    Int.mul_pos (by exact_mod_cast Nat.mul_pos hr hc) (max_type_pos T)
  have hdiv : roundToDouble (((M._rows * M._cols : Nat) : Int) * (max_type T).val) ≠ 0 :=
    fun h0 => (ne_of_gt hdpos) ((roundToDouble_eq_zero _).mp h0)
  unfold fillability
  simp only []
  rw [fillability_sum M (fun r c hr' hc' => le_of_eq (h r c hr' hc').symm)
    (by rw [hsum]; decide), hsum, if_neg hdiv]
  simp [roundRat_zero]

/-- C14: zero-filled construction.  For every `rows > 0` and `cols > 0`, constructing with
`is_fill = false` yields a matrix with `get_rows() = rows`, `get_cols() = cols` and every
cell equal to zero, and its `fillability()` is exactly 0. -/
theorem construct_zero_filled (rows cols : Nat) (hr : 0 < rows) (hc : 0 < cols)
    (fresh dice : Nat → Nat → Cell T) :
    (construct T rows cols false fresh dice).get_rows = rows ∧
    (construct T rows cols false fresh dice).get_cols = cols ∧
    (∀ r c, r < rows → c < cols →
      ((construct T rows cols false fresh dice)._data r c).val = 0) ∧
    (construct T rows cols false fresh dice).fillability = some 0 := by
  obtain ⟨h1, h2, h3⟩ := construct_zero_cells (T := T) rows cols fresh dice
  have hcells : ∀ r c, r < rows → c < cols →
      ((construct T rows cols false fresh dice)._data r c).val = 0 := by
    intro r c hrr hcc
    rw [h3, if_pos ⟨hrr, hcc⟩]
    exact zero_val T
  refine ⟨h1, h2, hcells, ?_⟩
  exact fillability_zero (construct T rows cols false fresh dice)
    (by rw [h1]; exact hr) (by rw [h2]; exact hc)
    (fun r c hrr hcc => hcells r c (h1 ▸ hrr) (h2 ▸ hcc))

/-- C14 witness: the zero-filled 2 x 3 `short` matrix built over arbitrary storage. -/
theorem construct_zero_filled_witness :
    (construct PixelType.short 2 3 false (fun _ _ => max_type PixelType.short)
      (fun _ _ => max_type PixelType.short)).fillability = some 0 :=
  (construct_zero_filled 2 3 (by decide) (by decide) _ _).2.2.2

/-- The cell sum of the complement of a matrix in range that the `int` counters cover. -/
theorem cellSum_operator_not (M : GrScImage T) (h : M.InRange)
    (hrows : M._rows ≤ 2147483648) (hcols : M._cols ≤ 2147483648) :
    M.operator_not.cellSum =
      ((M._rows * M._cols : Nat) : Int) * (max_type T).val - M.cellSum := by
  obtain ⟨h1, h2, h3, _⟩ := operator_not_within_int_range M h hrows hcols
  unfold cellSum
  rw [h1, h2]
  have hcell : ∀ r ∈ Finset.range M._rows, ∀ c ∈ Finset.range M._cols,
      (M.operator_not._data r c).val = (max_type T).val - (M._data r c).val :=
    fun r hr c hc => h3 r c (Finset.mem_range.mp hr) (Finset.mem_range.mp hc)
  rw [Finset.sum_congr rfl (fun r hr => Finset.sum_congr rfl (fun c hc => hcell r hr c hc))]
  simp only [Finset.sum_sub_distrib, Finset.sum_const, Finset.card_range, smul_eq_mul,
    nsmul_eq_mul]
  push_cast
  ring

/-- The exact density of the complement is 1 minus the exact density. -/
theorem density_operator_not (M : GrScImage T) (hr : 0 < M._rows) (hc : 0 < M._cols)
    (h : M.InRange) (hrows : M._rows ≤ 2147483648) (hcols : M._cols ≤ 2147483648) :
    M.operator_not.density = 1 - M.density := by
  obtain ⟨h1, h2, _⟩ := operator_not_cells M
  have hne := ne_of_gt (divisor_pos M hr hc)
  unfold density
  rw [cellSum_operator_not M h hrows hcols, h1, h2]
  push_cast at hne ⊢
  rw [sub_div, div_self hne]

/-- The result of `fillability` on the complement, in closed form. -/
theorem fillability_operator_not (M : GrScImage T) (hr : 0 < M._rows) (hc : 0 < M._cols)
    (h : M.InRange) (hrows : M._rows ≤ 2147483648) (hcols : M._cols ≤ 2147483648)
    (hsize : ((M._rows * M._cols : Nat) : Int) * (max_type T).val < 9007199254740992) :
    M.operator_not.fillability = some (roundRat 53 (1 - M.density)) := by
  obtain ⟨h1, h2, _, _, hin⟩ := operator_not_within_int_range M h hrows hcols
  rw [fillability_eq M.operator_not (by rw [h1]; exact hr) (by rw [h2]; exact hc) hin
    (by rw [h1, h2]; exact hsize), density_operator_not M hr hc h hrows hcols]

/-- C19, amended: complement inverts the exact density, and `fillability` follows up to
the rounding of its `double` quotient.  For every `bool`, `char` or `short` matrix `M` with
`rows > 0` and `cols > 0` (at most `2^31` each), whose cells all lie in `[0, max_value]` and
whose divisor `rows * cols * max_value` is below `2^53`, the exact density of `!M` is 1 minus
that of `M`, `fillability` returns the `double` nearest to the exact density on both, and
the fillability of `!M` differs from 1 minus the fillability of `M` by at most `2^-53`. -/
theorem complement_inverts_density (M : GrScImage T) (hr : 0 < M._rows) (hc : 0 < M._cols)
    (h : M.InRange) (hrows : M._rows ≤ 2147483648) (hcols : M._cols ≤ 2147483648)
    (hsize : ((M._rows * M._cols : Nat) : Int) * (max_type T).val < 9007199254740992) :
    M.operator_not.density = 1 - M.density ∧
    M.fillability = some (roundRat 53 M.density) ∧
    M.operator_not.fillability = some (roundRat 53 (1 - M.density)) ∧
    |roundRat 53 (1 - M.density) - (1 - roundRat 53 M.density)| ≤ 1 / 9007199254740992 := by
  obtain ⟨hd0, hd1⟩ := density_unit M hr hc h
  obtain ⟨_, _, hu⟩ := roundRat_unit 53 (by decide) M.density hd0 hd1
  obtain ⟨_, _, hv⟩ := roundRat_unit 53 (by decide) (1 - M.density) (by linarith) (by linarith)
  have hpow : (2 : ℚ) ^ (-((53 : Nat) : Int) - 1) = 1 / 18014398509481984 := by norm_num
  rw [hpow] at hu hv
  refine ⟨density_operator_not M hr hc h hrows hcols, fillability_eq M hr hc h hsize,
    fillability_operator_not M hr hc h hrows hcols hsize, ?_⟩
  rw [abs_le] at hu hv ⊢
  constructor <;> linarith [hu.1, hu.2, hv.1, hv.2]

/-- C19 witness: on the 2 x 2 `char` matrix of 27s the exact densities are `27 / 127` and
`100 / 127`, and the two fillabilities are the `double`s nearest to them. -/
theorem complement_inverts_density_witness :
    (constant 2 2 (convert PixelType.char 27)).operator_not.density = 100 / 127 ∧
    (constant 2 2 (convert PixelType.char 27)).fillability =
      some (7659665507968718 / 36028797018963968) ∧
    (constant 2 2 (convert PixelType.char 27)).operator_not.fillability =
      some (7092282877748813 / 9007199254740992) := by
  have h := complement_inverts_density (constant 2 2 (convert PixelType.char 27))
    (by decide) (by decide) (constant_inRange 2 2 _ (by decide)) (by decide) (by decide)
    (by decide)
  rw [density_constant_27, roundRat_27_127] at h
  have h1 : (1 : ℚ) - 27 / 127 = 100 / 127 := by norm_num
  rw [h1, roundRat_100_127] at h
  exact ⟨h.1, h.2.1, h.2.2.1⟩

/-- C19 as stated fails: on the 2 x 2 `char` matrix of 27s, which is in range,
`fillability` returns `7659665507968718 / 2^55` and on its complement
`7092282877748813 / 2^53`; 1 minus the former is `7092282877748812.5 / 2^53`. -/
theorem complement_inverts_density_fails :
    (constant 2 2 (convert PixelType.char 27)).InRange ∧
    (constant 2 2 (convert PixelType.char 27)).fillability =
      some (7659665507968718 / 36028797018963968) ∧
    (constant 2 2 (convert PixelType.char 27)).operator_not.fillability =
      some (7092282877748813 / 9007199254740992) ∧
    (7092282877748813 / 9007199254740992 : ℚ) ≠ 1 - 7659665507968718 / 36028797018963968 := by
  refine ⟨constant_inRange 2 2 _ (by decide), fillability_constant_27, ?_, by norm_num⟩
  rw [fillability_operator_not _ (by decide) (by decide)
    (constant_inRange 2 2 _ (by decide)) (by decide) (by decide) (by decide),
    density_constant_27]
  have h1 : (1 : ℚ) - 27 / 127 = 100 / 127 := by norm_num
  rw [h1, roundRat_100_127]

/-! ## Radius zero and the range invariant under `draw_circle` -/

/-- The conversions to `long long` and the wrapped difference vanish only for equal
`size_t` values. -/
theorem wrapped_difference_eq_zero (x c : Nat) (hx : x < 18446744073709551616)
    (hc : c < 18446744073709551616) :
    wrapLongLong (toLongLong x - toLongLong c) = 0 ↔ x = c := by
  unfold toLongLong wrapLongLong
  omega

/-- With radius 0 the test of `draw_circle` holds exactly at the centre. -/
theorem stamps_radius_zero (center_x center_y x y : Nat)
    (hcx : center_x < 18446744073709551616) (hcy : center_y < 18446744073709551616)
    (hx : x < 18446744073709551616) (hy : y < 18446744073709551616) :
    stamps center_x center_y 0 x y ↔ x = center_x ∧ y = center_y := by
  have hrs : roundToDouble (wrapLongLong (toLongLong 0 * toLongLong 0)) = 0 := by decide
  have hdx := double_square_nonneg (wrapLongLong (toLongLong x - toLongLong center_x))
  have hdy := double_square_nonneg (wrapLongLong (toLongLong y - toLongLong center_y))
  have hsum := roundToDouble_nonneg _ (add_nonneg hdx hdy)
  have hsq : ∀ z : Int, roundToDouble (roundToDouble z * roundToDouble z) = 0 ↔ z = 0 := by
    intro z
    rw [roundToDouble_eq_zero, mul_self_eq_zero, roundToDouble_eq_zero]
  have hxz := wrapped_difference_eq_zero x center_x hx hcx
  have hyz := wrapped_difference_eq_zero y center_y hy hcy
  unfold stamps
  rw [hrs, ← hxz, ← hyz]
  generalize wrapLongLong (toLongLong x - toLongLong center_x) = a at *
  generalize wrapLongLong (toLongLong y - toLongLong center_y) = b at *
  constructor
  · intro h
    have h0 := (roundToDouble_eq_zero _).mp (le_antisymm h hsum)
    have ha0 : roundToDouble (roundToDouble a * roundToDouble a) = 0 := by omega
    have hb0 : roundToDouble (roundToDouble b * roundToDouble b) = 0 := by omega
    exact ⟨(hsq a).mp ha0, (hsq b).mp hb0⟩
  · rintro ⟨rfl, rfl⟩
    decide

/-- C16: a radius-0 stamp touches at most one cell.  For every matrix, every centre of the
`size_t` parameter type and every value, `draw_circle(center_x, center_y, 0, value)`
keeps the dimensions and changes no cell other than `(center_x, center_y)`; it sets exactly
that cell to `value` when `center_x < rows` and `center_y < cols`, and leaves the whole
matrix unchanged when the centre lies outside the grid. -/
theorem draw_circle_radius_zero (img : GrScImage T) (center_x center_y : Nat)
    (value : Cell T)
    (hcx : center_x < 18446744073709551616) (hcy : center_y < 18446744073709551616)
    (hrows : img._rows ≤ 18446744073709551616) (hcols : img._cols ≤ 18446744073709551616) :
    (img.draw_circle center_x center_y 0 value)._rows = img._rows ∧
    (img.draw_circle center_x center_y 0 value)._cols = img._cols ∧
    (∀ x y, ¬ (x = center_x ∧ y = center_y) →
      (img.draw_circle center_x center_y 0 value)._data x y = img._data x y) ∧
    (center_x < img._rows ∧ center_y < img._cols →
      (img.draw_circle center_x center_y 0 value)._data center_x center_y = value) ∧
    (¬ (center_x < img._rows ∧ center_y < img._cols) →
      ∀ x y, (img.draw_circle center_x center_y 0 value)._data x y = img._data x y) := by
  obtain ⟨h1, h2, h3⟩ := draw_circle_cells img center_x center_y 0 value
  have hother : ∀ x y, ¬ (x = center_x ∧ y = center_y) →
      (img.draw_circle center_x center_y 0 value)._data x y = img._data x y := by
    intro x y hne
    rw [h3]
    apply if_neg
    rintro ⟨hx, hy, hs⟩
    exact hne ((stamps_radius_zero center_x center_y x y hcx hcy (by omega) (by omega)).mp hs)
  refine ⟨h1, h2, hother, fun hin => ?_, fun hout x y => ?_⟩
  · rw [h3]
    apply if_pos
    exact ⟨hin.1, hin.2,
      (stamps_radius_zero center_x center_y center_x center_y hcx hcy hcx hcy).mpr ⟨rfl, rfl⟩⟩
  · by_cases hxy : x = center_x ∧ y = center_y
    · rw [h3]
      apply if_neg
      rintro ⟨hx, hy, _⟩
      exact hout ⟨hxy.1 ▸ hx, hxy.2 ▸ hy⟩
    · exact hother x y hxy

/-- C16 witness: on a 2 x 2 `char` matrix of zeros the radius-0 stamp at `(1, 0)` writes
cell `(1, 0)` only. -/
theorem draw_circle_radius_zero_witness :
    (((constant 2 2 (zero PixelType.char)).draw_circle 1 0 0
        (max_type PixelType.char))._data 1 0).val = 127 ∧
    (((constant 2 2 (zero PixelType.char)).draw_circle 1 0 0
        (max_type PixelType.char))._data 1 1).val = 0 := by
  have h := draw_circle_radius_zero (constant 2 2 (zero PixelType.char)) 1 0
    (max_type PixelType.char) (by decide) (by decide) (by decide) (by decide)
  constructor
  · rw [h.2.2.2.1 ⟨by decide, by decide⟩]; rfl
  · rw [h.2.2.1 1 1 (by decide)]; rfl

/-- C17, amended: `draw_circle` preserves the value-range invariant when the stamp value
itself lies in `[0, max_value]`: for every matrix whose cells all lie in `[0, max_value]`,
every centre and radius and every stamp value `value >= 0` of the element type, every cell
of the matrix after `draw_circle` lies in `[0, max_value]`. -/
theorem draw_circle_preserves_range (img : GrScImage T) (center_x center_y radius : Nat)
    (value : Cell T) (himg : img.InRange) (hv : 0 ≤ value.val) :
    (img.draw_circle center_x center_y radius value).InRange := by
  obtain ⟨h1, h2, h3⟩ := draw_circle_cells img center_x center_y radius value
  intro r c hr hc
  rw [h3]
  by_cases hs : r < img._rows ∧ c < img._cols ∧ stamps center_x center_y radius r c
  · rw [if_pos hs, max_type_val]
    exact ⟨hv, value.property.2⟩
  · rw [if_neg hs]
    exact himg r c (h1 ▸ hr) (h2 ▸ hc)

/-- C17 witness: stamping 100 on a 2 x 2 `char` matrix of 27s keeps it in range. -/
theorem draw_circle_preserves_range_witness :
    ((constant 2 2 (convert PixelType.char 27)).draw_circle 0 0 1
      (convert PixelType.char 100)).InRange :=
  draw_circle_preserves_range _ 0 0 1 _ (constant_inRange 2 2 _ (by decide)) (by decide)

/-- C17 as stated fails: the stamp value is stored unclamped, so stamping the `char` value
`-1` with radius 0 at `(0, 0)` on the 1 x 1 zero matrix leaves the cell `-1`. -/
theorem draw_circle_breaks_range :
    (constant 1 1 (zero PixelType.char)).InRange ∧
    ¬ ((constant 1 1 (zero PixelType.char)).draw_circle 0 0 0
        (convert PixelType.char (-1))).InRange := by
  refine ⟨constant_inRange 1 1 _ (by decide), fun h => ?_⟩
  have h00 := h 0 0 (by decide) (by decide)
  revert h00
  decide

/-! ## Monotonicity of the rounding and of the stamped region -/

theorem roundToDouble_ofNat_large (n : Nat) (h : 9007199254740992 ≤ n) :
    roundToDouble (n : Int) =
      ((roundedSignificand n (Nat.log2 n - 52) * 2 ^ (Nat.log2 n - 52) : Nat) : Int) := by
  have hpos : (0 : Int) < (n : Int) := by omega
  unfold roundToDouble roundedSignificand
  simp only [Int.natAbs_ofNat]
  rw [if_neg (by omega), Int.sign_eq_one_of_pos hpos, one_mul]

/-- The selected significand is the quotient or its successor. -/
theorem roundedSignificand_bounds (n sh : Nat) :
    n / 2 ^ sh ≤ roundedSignificand n sh ∧ roundedSignificand n sh ≤ n / 2 ^ sh + 1 := by
  unfold roundedSignificand
  split <;> omega

/-- At a fixed shift the rounded value is monotone. -/
theorem roundedSignificand_mono (a b sh : Nat) (hab : a ≤ b) :
    roundedSignificand a sh ≤ roundedSignificand b sh := by
  have hq : a / 2 ^ sh ≤ b / 2 ^ sh := Nat.div_le_div_right hab
  have ha := roundedSignificand_bounds a sh
  have hb := roundedSignificand_bounds b sh
  by_cases heq : a / 2 ^ sh = b / 2 ^ sh
  · have hda := Nat.div_add_mod a (2 ^ sh)
    have hdb := Nat.div_add_mod b (2 ^ sh)
    rw [heq] at hda
    have hrem : a % 2 ^ sh ≤ b % 2 ^ sh := by omega
    unfold roundedSignificand
    rw [heq]
    by_cases hup : 2 ^ (sh - 1) < a % 2 ^ sh ∨
        (a % 2 ^ sh = 2 ^ (sh - 1) ∧ b / 2 ^ sh % 2 = 1)
    · have hupb : 2 ^ (sh - 1) < b % 2 ^ sh ∨
          (b % 2 ^ sh = 2 ^ (sh - 1) ∧ b / 2 ^ sh % 2 = 1) := by
        rcases hup with h1 | ⟨h1, h2⟩
        · exact Or.inl (by omega)
        · by_cases h3 : b % 2 ^ sh = 2 ^ (sh - 1)
          · exact Or.inr ⟨h3, h2⟩
          · exact Or.inl (by omega)
      rw [if_pos hup, if_pos hupb]
    · rw [if_neg hup]
      split <;> omega
  · omega

theorem log2_mono (a b : Nat) (ha : a ≠ 0) (hab : a ≤ b) : Nat.log2 a ≤ Nat.log2 b :=
  (Nat.le_log2 (by omega)).mpr (le_trans (Nat.log2_self_le ha) hab)

/-- The rounded value of `n >= 2^53` stays within the binade of `n`. -/
theorem rounded_binade (n : Nat) (h : 9007199254740992 ≤ n) :
    2 ^ Nat.log2 n ≤ roundedSignificand n (Nat.log2 n - 52) * 2 ^ (Nat.log2 n - 52) ∧
    roundedSignificand n (Nat.log2 n - 52) * 2 ^ (Nat.log2 n - 52) ≤ 2 ^ (Nat.log2 n + 1) := by
  have hne : n ≠ 0 := by omega
  have he : 53 ≤ Nat.log2 n := (Nat.le_log2 hne).mpr (by simpa using h)
  have hlow : 2 ^ Nat.log2 n ≤ n := Nat.log2_self_le hne
  have hhigh : n < 2 ^ (Nat.log2 n + 1) := Nat.lt_log2_self
  have hsplit : 2 ^ Nat.log2 n = 2 ^ 52 * 2 ^ (Nat.log2 n - 52) := by
    rw [← Nat.pow_add]; congr 1; omega
  have hsplit' : 2 ^ (Nat.log2 n + 1) = 2 ^ 53 * 2 ^ (Nat.log2 n - 52) := by
    rw [← Nat.pow_add]; congr 1; omega
  have hpos : 0 < 2 ^ (Nat.log2 n - 52) := Nat.pow_pos (by decide)
  have hb := roundedSignificand_bounds n (Nat.log2 n - 52)
  have hq1 : 2 ^ 52 ≤ n / 2 ^ (Nat.log2 n - 52) := by
    rw [Nat.le_div_iff_mul_le hpos, ← hsplit]; exact hlow
  have hq2 : n / 2 ^ (Nat.log2 n - 52) < 2 ^ 53 := by
    rw [Nat.div_lt_iff_lt_mul hpos, ← hsplit']; exact hhigh
  constructor
  · rw [hsplit]
    exact Nat.mul_le_mul_right _ (le_trans hq1 hb.1)
  · rw [hsplit']
    exact Nat.mul_le_mul_right _ (by omega)

/-- The rounding to `double` is monotone on the non-negative integers. -/
theorem roundToDouble_mono (a b : Int) (ha : 0 ≤ a) (hab : a ≤ b) :
    roundToDouble a ≤ roundToDouble b := by
  obtain ⟨n, rfl⟩ := Int.eq_ofNat_of_zero_le ha
  obtain ⟨m, rfl⟩ := Int.eq_ofNat_of_zero_le (le_trans ha hab)
  have hnm : n ≤ m := by exact_mod_cast hab
  by_cases hn : n < 9007199254740992
  · rw [roundToDouble_small _ (by simpa using hn)]
    by_cases hm : m < 9007199254740992
    · rw [roundToDouble_small _ (by simpa using hm)]; exact hab
    · have := roundToDouble_large (m : Int) (by omega)
      omega
  · have hn' : 9007199254740992 ≤ n := by omega
    have hm' : 9007199254740992 ≤ m := by omega
    rw [roundToDouble_ofNat_large n hn', roundToDouble_ofNat_large m hm']
    have hlog := log2_mono n m (by omega) hnm
    have hbn := rounded_binade n hn'
    have hbm := rounded_binade m hm'
    by_cases heq : Nat.log2 n = Nat.log2 m
    · rw [heq]
      exact_mod_cast Nat.mul_le_mul_right _ (roundedSignificand_mono n m _ hnm)
    · have hpow : 2 ^ (Nat.log2 n + 1) ≤ 2 ^ Nat.log2 m :=
        Nat.pow_le_pow_right (by decide) (by omega)
      exact_mod_cast le_trans hbn.2 (le_trans hpow hbm.1)

/-- Up to 3037000499 the square of the radius fits `long long`. -/
theorem radius_square_exact (radius : Nat) (h : radius ≤ 3037000499) :
    wrapLongLong (toLongLong radius * toLongLong radius) = (radius : Int) * radius := by
  have hr : (radius : Int) ≤ 3037000499 := by exact_mod_cast h
  have h0 : (0 : Int) ≤ (radius : Int) := Int.ofNat_nonneg radius
  have hsq : (radius : Int) * radius ≤ 3037000499 * 3037000499 := by nlinarith
  have hsq0 : (0 : Int) ≤ (radius : Int) * radius := mul_self_nonneg _
  rw [toLongLong_eq radius (by omega)]
  exact wrapLongLong_eq _ (by omega) (by omega)

/-- While `radius²` does not overflow, a larger radius passes the test wherever a smaller
one does. -/
theorem stamps_radius_mono (center_x center_y r1 r2 x y : Nat) (h12 : r1 ≤ r2)
    (h2 : r2 ≤ 3037000499) (h : stamps center_x center_y r1 x y) :
    stamps center_x center_y r2 x y := by
  have hle : (r1 : Int) * r1 ≤ (r2 : Int) * r2 := by
    have h1 : (r1 : Int) ≤ r2 := by exact_mod_cast h12
    have h0 : (0 : Int) ≤ (r1 : Int) := Int.ofNat_nonneg r1
    nlinarith
  have hmono := roundToDouble_mono _ _ (mul_self_nonneg (r1 : Int)) hle
  unfold stamps at h ⊢
  rw [radius_square_exact r1 (by omega)] at h
  rw [radius_square_exact r2 h2]
  exact le_trans h hmono

/-- C20, amended: the stamped region grows monotonically with the radius as long as
`radius²` fits the signed 64-bit product of line 250.  For every matrix shape, every
centre and all radii `r1 <= r2 <= 3037000499`, every cell that `draw_circle` overwrites
with radius `r1` is also overwritten, with the stamp value, with radius `r2`. -/
theorem draw_circle_radius_monotone (img : GrScImage T) (center_x center_y r1 r2 : Nat)
    (value : Cell T) (x y : Nat) (h12 : r1 ≤ r2) (h2 : r2 ≤ 3037000499)
    (h : overwrites img center_x center_y r1 x y) :
    overwrites img center_x center_y r2 x y ∧
    (img.draw_circle center_x center_y r2 value)._data x y = value := by
  have hover : overwrites img center_x center_y r2 x y :=
    ⟨h.1, h.2.1, stamps_radius_mono center_x center_y r1 r2 x y h12 h2 h.2.2⟩
  refine ⟨hover, ?_⟩
  rw [(draw_circle_cells img center_x center_y r2 value).2.2]
  exact if_pos hover

/-- C20 witness: on a 3 x 3 `char` matrix the cell `(0, 1)` is written with radius 1 around
`(1, 1)`, hence also with radius 2. -/
theorem draw_circle_radius_monotone_witness :
    overwrites (constant 3 3 (zero PixelType.char)) 1 1 2 0 1 ∧
    ((constant 3 3 (zero PixelType.char)).draw_circle 1 1 2
      (max_type PixelType.char))._data 0 1 = max_type PixelType.char :=
  draw_circle_radius_monotone (constant 3 3 (zero PixelType.char)) 1 1 1 2
    (max_type PixelType.char) 0 1 (by decide) (by decide) (by decide)

/-- C20 as stated fails: `2 <= 2^64 - 1`, the cell `(0, 0)` at squared distance 4 from the
centre `(2, 0)` is overwritten with radius 2, but with radius `2^64 - 1` the conversion to
`long long` gives `-1`, `radius_square = 1`, and the cell keeps its content. -/
theorem draw_circle_radius_not_monotone :
    (2 : Nat) ≤ 18446744073709551615 ∧
    overwrites (constant 1 1 (zero PixelType.char)) 2 0 2 0 0 ∧
    ¬ overwrites (constant 1 1 (zero PixelType.char)) 2 0 18446744073709551615 0 0 ∧
    (((constant 1 1 (zero PixelType.char)).draw_circle 2 0 2
      (max_type PixelType.char))._data 0 0).val = 127 ∧
    (((constant 1 1 (zero PixelType.char)).draw_circle 2 0 18446744073709551615
      (max_type PixelType.char))._data 0 0).val = 0 := by
  decide

/-! ## Commutativity of the matrix operators -/

theorem addCell_comm (a b : Cell T) : addCell a b = addCell b a := by
  apply Subtype.ext
  rw [addCell_val, addCell_val, add_comm a.val b.val]
  have h : (if a.val ≠ 0 ∨ b.val ≠ 0 then (1 : Int) else 0) =
      if b.val ≠ 0 ∨ a.val ≠ 0 then 1 else 0 := by
    split <;> split <;> first | rfl | omega
  rw [h]

theorem mulCell_comm (a b : Cell T) : mulCell a b = mulCell b a := by
  apply Subtype.ext
  rw [mulCell_val, mulCell_val, mul_comm a.val b.val]
  have h : (if a.val ≠ 0 ∧ b.val ≠ 0 then (1 : Int) else 0) =
      if b.val ≠ 0 ∧ a.val ≠ 0 then 1 else 0 := by
    split <;> split <;> first | rfl | omega
  rw [h]

/-- C18: the matrix-by-matrix operators are commutative, also for mismatched shapes.  For
every pair of matrices `A` and `B` of type `bool`, `char` or `short` (any dimensions, any
stored values), `A + B == B + A` and `A * B == B * A` under `operator==`. -/
theorem matrix_operators_commute (A B : GrScImage T)
    (fresh dice fresh2 dice2 : Nat → Nat → Cell T) :
    (∃ ab ba, A.operator_add B fresh dice = Except.ok ab ∧
      B.operator_add A fresh2 dice2 = Except.ok ba ∧
      ab.operator_eq ba = Except.ok true) ∧
    (∃ ab ba, A.operator_mul B fresh dice = Except.ok ab ∧
      B.operator_mul A fresh2 dice2 = Except.ok ba ∧
      ab.operator_eq ba = Except.ok true) := by
  constructor
  · obtain ⟨ab, hab, hr1, hc1, hd1⟩ := operator_add_cells A B fresh dice
    obtain ⟨ba, hba, hr2, hc2, hd2⟩ := operator_add_cells B A fresh2 dice2
    refine ⟨ab, ba, hab, hba, ?_⟩
    apply operator_eq_of_cells ab ba (by rw [hr1, hr2, Nat.max_comm])
      (by rw [hc1, hc2, Nat.max_comm])
    intro r c hr hc
    rw [hd1 r c (hr1 ▸ hr) (hc1 ▸ hc),
      hd2 r c (by rw [Nat.max_comm]; exact hr1 ▸ hr) (by rw [Nat.max_comm]; exact hc1 ▸ hc)]
    exact addCell_comm _ _
  · obtain ⟨ab, hab, hr1, hc1, hd1⟩ := operator_mul_cells A B fresh dice
    obtain ⟨ba, hba, hr2, hc2, hd2⟩ := operator_mul_cells B A fresh2 dice2
    refine ⟨ab, ba, hab, hba, ?_⟩
    apply operator_eq_of_cells ab ba (by rw [hr1, hr2, Nat.max_comm])
      (by rw [hc1, hc2, Nat.max_comm])
    intro r c hr hc
    rw [hd1 r c (hr1 ▸ hr) (hc1 ▸ hc),
      hd2 r c (by rw [Nat.max_comm]; exact hr1 ▸ hr) (by rw [Nat.max_comm]; exact hc1 ▸ hc)]
    exact mulCell_comm _ _

/-! ## Stamping full intensity on a blank image -/

theorem diskCount_eq_sum (rows cols center_x center_y radius : Nat) :
    diskCount rows cols center_x center_y radius =
      ∑ x ∈ Finset.range rows, ∑ y ∈ Finset.range cols,
        if ((x : Int) - center_x) ^ 2 + ((y : Int) - center_y) ^ 2 ≤ (radius : Int) ^ 2
        then 1 else 0 := by
  unfold diskCount
  rw [Finset.card_filter, Finset.sum_product]

/-- After stamping `max_value` on a grid of zeros, within the bounds where the test of
`draw_circle` is exact, the cell sum is `max_value` times the number of cells of the disk. -/
theorem cellSum_stamped (M : GrScImage T) (center_x center_y radius : Nat)
    (hzero : ∀ r c, r < M._rows → c < M._cols → (M._data r c).val = 0)
    (hr : radius ≤ 94906265)
    (hcx : center_x < 9223372036854775808) (hcy : center_y < 9223372036854775808)
    (hrows : M._rows ≤ 9223372036854775808) (hcols : M._cols ≤ 9223372036854775808) :
    (M.draw_circle center_x center_y radius (max_type T)).cellSum =
      (diskCount M._rows M._cols center_x center_y radius : Int) * (max_type T).val := by
  obtain ⟨h1, h2, h3⟩ := draw_circle_cells M center_x center_y radius (max_type T)
  have hcell : ∀ x ∈ Finset.range M._rows, ∀ y ∈ Finset.range M._cols,
      ((M.draw_circle center_x center_y radius (max_type T))._data x y).val =
        (if ((x : Int) - center_x) ^ 2 + ((y : Int) - center_y) ^ 2 ≤ (radius : Int) ^ 2
         then 1 else 0) * (max_type T).val := by
    intro x hx y hy
    have hx' := Finset.mem_range.mp hx
    have hy' := Finset.mem_range.mp hy
    have hiff := stamps_iff center_x center_y radius x y hr hcx hcy (by omega) (by omega)
    rw [h3]
    by_cases hs : stamps center_x center_y radius x y
    · rw [if_pos ⟨hx', hy', hs⟩, if_pos (hiff.mp hs), one_mul]
    · rw [if_neg (fun h => hs h.2.2), if_neg (fun h => hs (hiff.mpr h)), zero_mul]
      exact hzero x y hx' hy'
  unfold cellSum
  rw [h1, h2, Finset.sum_congr rfl
    (fun x hx => Finset.sum_congr rfl (fun y hy => hcell x hx y hy)), diskCount_eq_sum]
  push_cast
  rw [Finset.sum_mul]
  apply Finset.sum_congr rfl
  intro x _
  rw [Finset.sum_mul]

/-- After stamping `max_value` on a grid of zeros every cell is 0 or `max_value`. -/
theorem stamped_inRange (M : GrScImage T) (center_x center_y radius : Nat)
    (hzero : ∀ r c, r < M._rows → c < M._cols → (M._data r c).val = 0) :
    (M.draw_circle center_x center_y radius (max_type T)).InRange := by
  obtain ⟨h1, h2, h3⟩ := draw_circle_cells M center_x center_y radius (max_type T)
  intro r c hr hc
  rw [h1] at hr
  rw [h2] at hc
  rw [h3]
  by_cases hs : stamps center_x center_y radius r c
  · rw [if_pos ⟨hr, hc, hs⟩]
    exact ⟨le_of_lt (max_type_pos T), le_refl _⟩
  · rw [if_neg (fun h => hs h.2.2), hzero r c hr hc]
    exact ⟨le_refl _, le_of_lt (max_type_pos T)⟩

/-- C15, amended: stamping full intensity on a blank image measures the disk, up to the
rounding of the `double` quotient.  For every zero-filled matrix with `rows > 0` and
`cols > 0` (at most `2^63` each) whose divisor `rows * cols * max_value` is below `2^53`,
every centre with coordinates below `2^63` and every radius up to 94906265, after
`draw_circle(center, radius, max_value)` the fillability is the `double` nearest to (number
of grid cells whose squared distance to the centre is `<= radius²`) `/ (rows * cols)`. -/
theorem stamped_fillability (M : GrScImage T) (center_x center_y radius : Nat)
    (hzero : ∀ r c, r < M._rows → c < M._cols → (M._data r c).val = 0)
    (hrpos : 0 < M._rows) (hcpos : 0 < M._cols)
    (hr : radius ≤ 94906265)
    (hcx : center_x < 9223372036854775808) (hcy : center_y < 9223372036854775808)
    (hrows : M._rows ≤ 9223372036854775808) (hcols : M._cols ≤ 9223372036854775808)
    (hsize : ((M._rows * M._cols : Nat) : Int) * (max_type T).val < 9007199254740992) :
    (M.draw_circle center_x center_y radius (max_type T)).fillability =
      some (roundRat 53 ((diskCount M._rows M._cols center_x center_y radius : ℚ) /
        ((M._rows * M._cols : Nat) : ℚ))) := by
  obtain ⟨h1, h2, _⟩ := draw_circle_cells M center_x center_y radius (max_type T)
  have hmax : (0 : ℚ) < ((max_type T).val : ℚ) := by exact_mod_cast max_type_pos T
  rw [fillability_eq _ (by rw [h1]; exact hrpos) (by rw [h2]; exact hcpos)
    (stamped_inRange M center_x center_y radius hzero) (by rw [h1, h2]; exact hsize)]
  congr 2
  unfold density
  rw [cellSum_stamped M center_x center_y radius hzero hr hcx hcy hrows hcols, h1, h2]
  push_cast
  rw [mul_div_mul_right _ _ (ne_of_gt hmax)]

/-- C15 witness: on the 3 x 3 `char` matrix of zeros with centre `(1, 1)`, radius 1 and
value 127 exactly the cells `(0,1)`, `(1,0)`, `(1,1)`, `(1,2)`, `(2,1)` hold 127 afterwards
and the fillability is the `double` nearest to `5 / 9`, `5003999585967218 / 2^53`. -/
theorem stamped_fillability_witness :
    ((constant 3 3 (zero PixelType.char)).draw_circle 1 1 1
      (max_type PixelType.char)).fillability =
        some (5003999585967218 / 9007199254740992) ∧
    ∀ x, x < 3 → ∀ y, y < 3 →
      (((constant 3 3 (zero PixelType.char)).draw_circle 1 1 1
        (max_type PixelType.char))._data x y).val =
      if (x, y) ∈ [(0, 1), (1, 0), (1, 1), (1, 2), (2, 1)] then 127 else 0 := by
  constructor
  · rw [stamped_fillability (constant 3 3 (zero PixelType.char)) 1 1 1
      (fun _ _ _ _ => rfl) (by decide) (by decide) (by decide) (by decide) (by decide)
      (by decide) (by decide) (by decide)]
    have hcount : diskCount (constant 3 3 (zero PixelType.char))._rows
        (constant 3 3 (zero PixelType.char))._cols 1 1 1 = 5 := by decide
    have hn : (constant 3 3 (zero PixelType.char))._rows *
        (constant 3 3 (zero PixelType.char))._cols = 9 := rfl
    rw [hcount, hn]
    have h59 : ((5 : Nat) : ℚ) / ((9 : Nat) : ℚ) = 5 / 9 := by norm_num
    rw [h59, roundRat_5_9]
  · decide

/-- C15 as stated fails: with `radius = 2^64 - 1` the 1 x 1 grid cell at squared distance 4
from the centre `(2, 0)` is counted by the exact disk but not written (`radius_square = 1`),
so the fillability stays 0 instead of `1 / 1`. -/
theorem stamped_fillability_fails :
    ((constant 1 1 (zero PixelType.char)).draw_circle 2 0 18446744073709551615
      (max_type PixelType.char)).fillability ≠
      some ((diskCount 1 1 2 0 18446744073709551615 : ℚ) / ((1 * 1 : Nat) : ℚ)) := by
  have hcount : diskCount 1 1 2 0 18446744073709551615 = 1 := by decide
  have hcell : ∀ r c,
      r < ((constant 1 1 (zero PixelType.char)).draw_circle 2 0 18446744073709551615
        (max_type PixelType.char))._rows →
      c < ((constant 1 1 (zero PixelType.char)).draw_circle 2 0 18446744073709551615
        (max_type PixelType.char))._cols →
      (((constant 1 1 (zero PixelType.char)).draw_circle 2 0 18446744073709551615
        (max_type PixelType.char))._data r c).val = 0 := by
    intro r c hr hc
    have hr' : r = 0 := Nat.lt_one_iff.mp hr
    have hc' : c = 0 := Nat.lt_one_iff.mp hc
    rw [hr', hc']
    decide
  rw [fillability_zero _ (by decide) (by decide) hcell, hcount]
  norm_num

end GrScImage

end GrayScale
